import Mathlib

/-!
Verification of `scripts/fetch_blog_links.py` (WP-BlogBL).

The script is embedded shallowly over byte strings (`List (Fin 256)`).
Python `str` values are modelled as byte strings; the `urllib.parse`
functions used by the script (`urlparse`, `urlunparse`, `parse_qsl`,
`urlencode`, `quote_plus`/`unquote`) are modelled byte-for-byte at the
ASCII level (Unicode-specific behaviour such as UTF-8 re-encoding of
invalid percent escapes collapses to the identity on bytes, which agrees
with the Python semantics on every byte that round-trips).  Network and
HTML/XML-library behaviour (requests, BeautifulSoup) is modelled as an
explicit `World` value giving, for each URL, the structured result the
library would return.
-/

set_option maxRecDepth 10000

namespace BlogBL

/-- A Python character, modelled as a byte. -/
abbrev Byte := Fin 256

/-- A Python string, modelled as a byte string. -/
abbrev BStr := List Byte

/-- Byte string of a Lean string literal (all literals used below are ASCII). -/
def bs (s : String) : BStr := s.toList.map (fun c => ⟨c.toNat % 256, by omega⟩)

/-- `s.startswith(pat)`: first argument is the pattern. -/
def beginsWith : BStr → BStr → Bool
  | [], _ => true
  | _ :: _, [] => false
  | p :: ps, c :: cs => p = c && beginsWith ps cs

/-- `s.endswith(pat)`: first argument is the pattern. -/
def endsWithB (pat s : BStr) : Bool := beginsWith pat.reverse s.reverse

/-- `pat in s` (substring containment). -/
def containsSub (pat : BStr) : BStr → Bool
  | [] => beginsWith pat []
  | c :: rest => beginsWith pat (c :: rest) || containsSub pat rest

/-- ASCII lower-casing of one byte (`str.lower`, restricted to ASCII). -/
def pyLowerByte (c : Byte) : Byte :=
  if 65 ≤ c.val ∧ c.val ≤ 90 then c + 32 else c

/-- `s.lower()` (ASCII). -/
def pyLower (s : BStr) : BStr := s.map pyLowerByte

def isWsB (c : Byte) : Bool :=
  c.val = 32 || c.val = 9 || c.val = 10 || c.val = 13 || c.val = 11 || c.val = 12

/-- `s.strip()` (ASCII whitespace). -/
def pyStrip (s : BStr) : BStr :=
  ((s.dropWhile isWsB).reverse.dropWhile isWsB).reverse

/-- `s.rstrip('/')`. -/
def pyRstripSlash (s : BStr) : BStr :=
  (s.reverse.dropWhile (fun c => c = (47 : Byte))).reverse

/-- Split at the first occurrence of `sep`; `none` if absent. -/
def splitFirst (sep : Byte) : BStr → Option (BStr × BStr)
  | [] => none
  | c :: rest =>
    if c = sep then some ([], rest)
    else (splitFirst sep rest).map (fun p => (c :: p.1, p.2))

/-- Split at the last occurrence of `sep`; `none` if absent. -/
def splitLast (sep : Byte) : BStr → Option (BStr × BStr)
  | [] => none
  | c :: rest =>
    match splitLast sep rest with
    | some p => some (c :: p.1, p.2)
    | none => if c = sep then some ([], rest) else none

/-- `s.split(sep)` (always returns at least one chunk, like Python). -/
def pySplitAll (sep : Byte) : BStr → List BStr
  | [] => [[]]
  | c :: rest =>
    match pySplitAll sep rest with
    | [] => [[c]]
    | h :: t => if c = sep then [] :: h :: t else (c :: h) :: t

/-- `sep.join(xs)` for a one-byte separator. -/
def joinSep (sep : Byte) : List BStr → BStr
  | [] => []
  | [x] => x
  | x :: y :: t => x ++ sep :: joinSep sep (y :: t)

/-- Python `str.splitlines`, restricted to the terminators `\n`, `\r`, `\r\n`
(fuel-indexed so that the definition is structurally recursive). -/
def pySplitlinesF : Nat → BStr → List BStr
  | 0, _ => []
  | _, [] => []
  | fuel + 1, c :: rest =>
    if c = (10 : Byte) then [] :: pySplitlinesF fuel rest
    else if c = (13 : Byte) then
      match rest with
      | d :: rest2 =>
        if d = (10 : Byte) then [] :: pySplitlinesF fuel rest2
        else [] :: pySplitlinesF fuel (d :: rest2)
      | [] => [[]]
    else
      match pySplitlinesF fuel rest with
      | [] => [[c]]
      | h :: t => (c :: h) :: t

def pySplitlines (s : BStr) : List BStr := pySplitlinesF (s.length + 1) s

def isDigitB (c : Byte) : Bool := 48 ≤ c.val && c.val ≤ 57

def isAlphaB (c : Byte) : Bool :=
  (65 ≤ c.val && c.val ≤ 90) || (97 ≤ c.val && c.val ≤ 122)

def isAlnumB (c : Byte) : Bool := isAlphaB c || isDigitB c

/-- Decimal digits of a natural number (`str(n)` for `n : int`). -/
def natToDecAux : Nat → Nat → BStr
  | 0, _ => []
  | fuel + 1, n =>
    if h : n < 10 then [⟨48 + n, by omega⟩]
    else natToDecAux fuel (n / 10) ++ [⟨48 + n % 10, by omega⟩]

def natToDec (n : Nat) : BStr := natToDecAux (n + 1) n

/-! ### Model of `urllib.parse` (CPython ≥ 3.11, ASCII/byte level) -/

/-- Result of `urlsplit`: `(scheme, netloc, path, query, fragment)`. -/
structure SplitResult where
  scheme : BStr
  netloc : BStr
  path : BStr
  query : BStr
  fragment : BStr
deriving DecidableEq, Repr

/-- Result of `urlparse`: `urlsplit` plus the `params` component. -/
structure UrlComponents where
  scheme : BStr
  netloc : BStr
  path : BStr
  params : BStr
  query : BStr
  fragment : BStr
deriving DecidableEq, Repr

/-- `urlsplit` removes tab, CR and LF from its input before parsing. -/
def removeUnsafe (s : BStr) : BStr :=
  s.filter (fun c => !(c = (9 : Byte) || c = (10 : Byte) || c = (13 : Byte)))

/-- Characters allowed in a scheme (`scheme_chars`). -/
def isSchemeChar (c : Byte) : Bool :=
  isAlnumB c || c = (43 : Byte) || c = (45 : Byte) || c = (46 : Byte)

/-- A byte string that qualifies as a scheme: nonempty, first char alphabetic,
all chars scheme characters. -/
def goodSchemePre : BStr → Bool
  | [] => false
  | c :: cs => isAlphaB c && (c :: cs).all isSchemeChar

/-- The scheme-detection step of `urlsplit`: split at the first `:` when the
prefix qualifies as a scheme (returned lower-cased), else no scheme. -/
def splitScheme (s : BStr) : BStr × BStr :=
  match splitFirst 58 s with
  | none => ([], s)
  | some (pre, post) => if goodSchemePre pre then (pyLower pre, post) else ([], s)

/-- `_splitnetloc(url, 2)` applied to `url[2:]`: the netloc extends to the
first of `/`, `?`, `#`. -/
def netlocDelim (c : Byte) : Bool := c = (47 : Byte) || c = (63 : Byte) || c = (35 : Byte)

def splitNetloc (s : BStr) : BStr × BStr :=
  (s.takeWhile (fun c => !netlocDelim c), s.dropWhile (fun c => !netlocDelim c))

/-- `url.lstrip(_WHATWG_C0_CONTROL_OR_SPACE)`. -/
def lstripC0 (s : BStr) : BStr := s.dropWhile (fun c => c.val ≤ 32)

/-- The fragment and query splits of `urlsplit` (fragment first):
returns `(path, query, fragment)`. -/
def splitFragQuery (rest1 : BStr) : BStr × BStr × BStr :=
  let fr := match splitFirst 35 rest1 with
            | none => (rest1, ([] : BStr))
            | some p => p
  let qu := match splitFirst 63 fr.1 with
            | none => (fr.1, ([] : BStr))
            | some p => p
  (qu.1, qu.2, fr.2)

/-- `urlsplit` after scheme detection. -/
def pyUrlsplitAux (scheme rest0 : BStr) : SplitResult :=
  let nl := if rest0.take 2 = [(47 : Byte), (47 : Byte)] then splitNetloc (rest0.drop 2)
            else ([], rest0)
  let pqf := splitFragQuery nl.2
  ⟨scheme, nl.1, pqf.1, pqf.2.1, pqf.2.2⟩

/-- CPython `urllib.parse.urlsplit` (fragments allowed).  The `ValueError`
branches for unbalanced IPv6 brackets and non-ASCII netloc characters are
not modelled (inputs on which the Python code raises). -/
def pyUrlsplit (url0 : BStr) : SplitResult :=
  let url1 := removeUnsafe (lstripC0 url0)
  pyUrlsplitAux (splitScheme url1).1 (splitScheme url1).2

/-- The schemes of `urllib.parse.uses_params`. -/
def usesParams : List BStr :=
  [[], bs "ftp", bs "hdl", bs "prospero", bs "http", bs "imap", bs "https",
   bs "shttp", bs "rtsp", bs "rtsps", bs "rtspu", bs "sip", bs "sips", bs "mms",
   bs "sftp", bs "tel"]

/-- The schemes of `urllib.parse.uses_netloc`. -/
def usesNetloc : List BStr :=
  [[], bs "ftp", bs "http", bs "gopher", bs "nntp", bs "telnet", bs "imap",
   bs "wais", bs "file", bs "mms", bs "https", bs "shttp", bs "snews",
   bs "prospero", bs "rtsp", bs "rtsps", bs "rtspu", bs "rsync", bs "svn",
   bs "svn+ssh", bs "sftp", bs "nfs", bs "git", bs "git+ssh", bs "ws", bs "wss"]

/-- `_splitparams`: split the path at the first `;` occurring after the last
`/` (or anywhere when there is no `/`).  Only invoked by `urlparse` when the
path contains `;`, so the missing-`;` fallback returning the whole path is
unreachable under that guard. -/
def splitParams (url : BStr) : BStr × BStr :=
  match splitLast 47 url with
  | some p =>
    match splitFirst 59 p.2 with
    | none => (url, [])
    | some q => (p.1 ++ (47 : Byte) :: q.1, q.2)
  | none =>
    match splitFirst 59 url with
    | none => (url, [])
    | some q => (q.1, q.2)

/-- CPython `urllib.parse.urlparse`. -/
def pyUrlparse (u : BStr) : UrlComponents :=
  let r := pyUrlsplit u
  if r.scheme ∈ usesParams ∧ (59 : Byte) ∈ r.path then
    let pp := splitParams r.path
    ⟨r.scheme, r.netloc, pp.1, pp.2, r.query, r.fragment⟩
  else
    ⟨r.scheme, r.netloc, r.path, [], r.query, r.fragment⟩

/-- CPython `urllib.parse.urlunsplit`. -/
def pyUrlunsplit (c : SplitResult) : BStr :=
  let url := c.path
  let url :=
    if c.netloc ≠ [] ∨
        (c.scheme ≠ [] ∧ c.scheme ∈ usesNetloc ∧ url.take 2 ≠ [(47 : Byte), (47 : Byte)]) then
      let url := if url ≠ [] ∧ url.take 1 ≠ [(47 : Byte)] then (47 : Byte) :: url else url
      (47 : Byte) :: (47 : Byte) :: (c.netloc ++ url)
    else url
  let url := if c.scheme ≠ [] then c.scheme ++ (58 : Byte) :: url else url
  let url := if c.query ≠ [] then url ++ (63 : Byte) :: c.query else url
  if c.fragment ≠ [] then url ++ (35 : Byte) :: c.fragment else url

/-- Path with the params component re-attached (`"%s;%s" % (url, params)`). -/
def joinParams (path params : BStr) : BStr :=
  if params ≠ [] then path ++ (59 : Byte) :: params else path

/-- CPython `urllib.parse.urlunparse`. -/
def pyUrlunparse (c : UrlComponents) : BStr :=
  pyUrlunsplit ⟨c.scheme, c.netloc, joinParams c.path c.params, c.query, c.fragment⟩

/-- Hex digit value, accepting both cases (as `unquote` does). -/
def hexVal (c : Byte) : Option (Fin 16) :=
  if h : 48 ≤ c.val ∧ c.val ≤ 57 then some ⟨c.val - 48, by omega⟩
  else if h : 65 ≤ c.val ∧ c.val ≤ 70 then some ⟨c.val - 55, by omega⟩
  else if h : 97 ≤ c.val ∧ c.val ≤ 102 then some ⟨c.val - 87, by omega⟩
  else none

def mkByte (hi lo : Fin 16) : Byte := ⟨hi.val * 16 + lo.val, by omega⟩

/-- Upper-case hex digit of a value below 16. -/
def hexDigit (n : Nat) : Byte :=
  if h : n < 10 then ⟨48 + n, by omega⟩
  else ⟨65 + n % 16 - 10, by omega⟩

def hexHi (c : Byte) : Byte := hexDigit (c.val / 16)

def hexLo (c : Byte) : Byte := hexDigit (c.val % 16)

/-- High nibble of a byte. -/
def hexHiF (c : Byte) : Fin 16 := ⟨c.val / 16, by omega⟩

/-- Low nibble of a byte. -/
def hexLoF (c : Byte) : Fin 16 := ⟨c.val % 16, by omega⟩

/-- `urllib.parse.unquote` at the byte level: `%XX` escapes become bytes,
invalid escapes are kept literally. -/
def pyUnquote : BStr → BStr
  | [] => []
  | [c] => [c]
  | [c, a] => [c, a]
  | c :: a :: b :: rest2 =>
    if c = (37 : Byte) then
      match hexVal a, hexVal b with
      | some ha, some hb => mkByte ha hb :: pyUnquote rest2
      | _, _ => c :: pyUnquote (a :: b :: rest2)
    else c :: pyUnquote (a :: b :: rest2)

/-- The `.replace('+', ' ')` step of `parse_qsl`. -/
def replacePlus (s : BStr) : BStr :=
  s.map (fun c => if c = (43 : Byte) then (32 : Byte) else c)

/-- The `ALWAYS_SAFE` characters of `urllib.parse.quote`. -/
def alwaysSafeB (c : Byte) : Bool :=
  isAlnumB c || c = (95 : Byte) || c = (46 : Byte) || c = (45 : Byte) || c = (126 : Byte)

def quotePlusByte (c : Byte) : BStr :=
  if alwaysSafeB c then [c]
  else if c = (32 : Byte) then [(43 : Byte)]
  else [(37 : Byte), hexHi c, hexLo c]

/-- `urllib.parse.quote_plus` with empty `safe`. -/
def pyQuotePlus (s : BStr) : BStr := s.flatMap quotePlusByte

/-- `urllib.parse.urlencode` on a list of pairs. -/
def pyUrlencode (l : List (BStr × BStr)) : BStr :=
  joinSep 38 (l.map (fun kv => pyQuotePlus kv.1 ++ (61 : Byte) :: pyQuotePlus kv.2))

/-- `urllib.parse.parse_qsl(qs, keep_blank_values=True)` (separator `&`). -/
def pyParseQsl (qs : BStr) : List (BStr × BStr) :=
  (pySplitAll 38 qs).filterMap (fun chunk =>
    if chunk = [] then none
    else
      match splitFirst 61 chunk with
      | none => some (pyUnquote (replacePlus chunk), [])
      | some p => some (pyUnquote (replacePlus p.1), pyUnquote (replacePlus p.2)))

/-! ### URL helpers of the script -/

/-- The seen-set loop of `unique_keep_order` (and of the sitemap collectors). -/
def unique_keep_order_go : List BStr → List BStr → List BStr
  | [], _ => []
  | x :: xs, seen =>
    if x ∈ seen then unique_keep_order_go xs seen
    else x :: unique_keep_order_go xs (x :: seen)

def unique_keep_order (items : List BStr) : List BStr := unique_keep_order_go items []

/-- `k.lower().startswith("utm_")`. -/
def startsUtm (k : BStr) : Bool := beginsWith (bs "utm_") (pyLower k)

/-- `strip_utm` (lines 107–110). -/
def strip_utm (u : BStr) : BStr :=
  let p := pyUrlparse u
  let qs := (pyParseQsl p.query).filter (fun kv => !startsUtm kv.1)
  pyUrlunparse { p with query := pyUrlencode qs }

/-- `normalize_url` (lines 112–121). -/
def normalize_url (u : BStr) : BStr :=
  let u1 := strip_utm u
  let p := pyUrlparse u1
  let scheme := if pyLower p.scheme = [] then bs "https" else pyLower p.scheme
  let netloc := pyLower p.netloc
  let path0 := if p.path = [] then [(47 : Byte)] else p.path
  let path := if endsWithB (bs "/") path0 then path0 else path0 ++ [(47 : Byte)]
  pyUrlunparse ⟨scheme, netloc, path, p.params, p.query, p.fragment⟩

/-- `re.search(r"/\d{4}/\d{2}/", low)`: the pattern matches at this position. -/
def matchDateHere : BStr → Bool
  | s0 :: s1 :: s2 :: s3 :: s4 :: s5 :: s6 :: s7 :: s8 :: _ =>
    s0 = (47 : Byte) && isDigitB s1 && isDigitB s2 && isDigitB s3 && isDigitB s4 &&
    s5 = (47 : Byte) && isDigitB s6 && isDigitB s7 && s8 = (47 : Byte)
  | _ => false

def containsDatePattern : BStr → Bool
  | [] => false
  | c :: rest => matchDateHere (c :: rest) || containsDatePattern rest

/-- "/yazı/" in UTF-8 bytes (dotless ı is U+0131 = C4 B1). -/
def yaziDotless : BStr := [47, 121, 97, 122, 196, 177, 47]

/-- "/yazılar/" in UTF-8 bytes. -/
def yazilarDotless : BStr := [47, 121, 97, 122, 196, 177, 108, 97, 114, 47]

/-- `any(re.search(p, low) for p in POST_PATTERNS)` (lines 26–31); the
alternation `/yaz(i|ı|ilar|ılar)/` reduces to four literal substrings. -/
def matchesPostPattern (low : BStr) : Bool :=
  containsDatePattern low || containsSub (bs "/blog/") low ||
  containsSub (bs "/post/") low || containsSub (bs "/posts/") low ||
  containsSub (bs "/yazi/") low || containsSub yaziDotless low ||
  containsSub (bs "/yazilar/") low || containsSub yazilarDotless low

def stripOneTrailingSlash (s : BStr) : BStr :=
  if s.getLast? = some (47 : Byte) then s.dropLast else s

/-- `re.search(r"/page/\d+/?$", low)`: after stripping at most one trailing
slash, the string ends in `/page/` followed by one or more digits. -/
def matchPageEnd (s : BStr) : Bool :=
  let r := (stripOneTrailingSlash s).reverse
  let ds := r.takeWhile isDigitB
  !ds.isEmpty && beginsWith (bs "/egap/") (r.drop ds.length)

/-- `any(re.search(p, low) for p in EXCLUDE_PATTERNS)` (lines 34–42). -/
def matchesExcludePattern (low : BStr) : Bool :=
  containsSub (bs "/tag/") low || containsSub (bs "/kategori/") low ||
  containsSub (bs "/category/") low || containsSub (bs "/etiket/") low ||
  containsSub (bs "/author/") low || matchPageEnd low ||
  containsSub (bs "?s=") low || containsSub (bs "/attachment/") low ||
  containsSub (bs "/amp/") low

/-- `is_post_url` (lines 123–127). -/
def is_post_url (url : BStr) : Bool :=
  let low := pyLower url
  if matchesExcludePattern low then false else matchesPostPattern low

/-- `POST_SITEMAP_HINTS` (lines 45–49). -/
def postSitemapHints : List BStr :=
  [bs "post-sitemap", bs "posts-sitemap", bs "sitemap-posttype-post", bs "sitemap-posts"]

/-- `any(h in w.lower() for h in POST_SITEMAP_HINTS)`. -/
def hasPostHint (w : BStr) : Bool :=
  postSitemapHints.any (fun h => containsSub h (pyLower w))

/-! ### The network/library world

`requests` + BeautifulSoup behaviour is a parameter: for each URL the world
gives the structured value the libraries would produce (`none`/`raise`
models an exception reaching the script). `fetchXml` is the parsed view of
`read_text_maybe_gzip` + `BeautifulSoup(xml)`, `fetchHtml` of `fetch_text` +
`BeautifulSoup(html.parser)`, and `workerRaises` marks URLs whose pool
future raises when `f.result()` is called. -/

/-- A `<url>` element of a urlset: its first `<loc>`/`<lastmod>` texts. -/
structure UrlEntry where
  loc : Option BStr
  lastmod : Option BStr
deriving DecidableEq, Repr

/-- A parsed sitemap document: `find_all("url")`, `find_all("sitemap")`
(each with its first `<loc>` text), and `find_all("loc")` over the whole
document. -/
structure XmlDoc where
  urlTags : List UrlEntry
  sitemapTags : List (Option BStr)
  allLocs : List BStr
deriving DecidableEq, Repr

/-- A well-formed WP REST post object (title/excerpt dict-shaped with
`rendered` texts); payload shapes that raise inside the loop are modelled by
`JsonResp.raise`. -/
structure WpItem where
  titleRendered : Option BStr
  link : Option BStr
  date : Option BStr
  excerptText : Option BStr
deriving DecidableEq, Repr

inductive JsonResp where
  | raise : JsonResp
  | notList : JsonResp
  | list : List WpItem → JsonResp
deriving DecidableEq, Repr

/-- A parsed HTML page: the fields `extract_metadata` reads. Text fields are
the library outputs (`get_text(strip=True)` for `h1`/`title`/`p`). -/
structure HtmlDoc where
  canonicalHref : Option BStr
  ogTitle : Option BStr
  h1Text : Option BStr
  titleText : Option BStr
  ogDesc : Option BStr
  metaDesc : Option BStr
  firstPText : Option BStr
  articlePublished : Option BStr
  timeDatetime : Option BStr
deriving DecidableEq, Repr

structure World where
  fetchJson : BStr → JsonResp
  fetchXml : BStr → Option XmlDoc
  fetchText : BStr → Option BStr
  fetchHtml : BStr → Option HtmlDoc
  workerRaises : BStr → Bool

/-! ### WordPress REST discovery (lines 131–168) -/

def wpApiEndpoint (base : BStr) : BStr := pyRstripSlash base ++ bs "/wp-json/wp/v2/posts"

def wpParams (page : Nat) : List (BStr × BStr) :=
  [(bs "per_page", bs "100"), (bs "_fields", bs "title,link,date,excerpt"),
   (bs "status", bs "publish"), (bs "orderby", bs "date"), (bs "order", bs "desc"),
   (bs "page", natToDec page)]

/-- `f"{api}?{urlencode(params)}"`. -/
def wpPageUrl (base : BStr) (page : Nat) : BStr :=
  wpApiEndpoint base ++ (63 : Byte) :: pyUrlencode (wpParams page)

/-- One element of the result list: `(title, canonical_url, published, description)`. -/
structure WpTuple where
  title : BStr
  link : BStr
  pub : Option BStr
  desc : Option BStr
deriving DecidableEq, Repr

def truncate180 (t : BStr) : BStr :=
  if t.length > 180 then t.take 177 ++ bs "..." else t

/-- Lines 154–162: build one result tuple from a response item. -/
def parseWpItem (it : WpItem) : WpTuple :=
  let title0 := it.titleRendered.getD []
  let link := normalize_url (it.link.getD [])
  { title := if pyStrip title0 = [] then link else pyStrip title0
    link := link
    pub := it.date.bind (fun s => if s = [] then none else some s)
    desc := it.excerptText.map truncate180 }

/-- The `while True` pagination loop (lines 148–164), fuel-indexed: `none`
models non-termination within the given fuel.  A response exception
(`JsonResp.raise`) is caught by the surrounding `try` and yields `[]`. -/
def wpapiLoop (world : World) (base : BStr) : Nat → Nat → List WpTuple → Option (List WpTuple)
  | 0, _, _ => none
  | fuel + 1, page, acc =>
    match world.fetchJson (wpPageUrl base page) with
    | .raise => some []
    | .notList => some acc
    | .list [] => some acc
    | .list (it :: its) =>
      wpapiLoop world base fuel (page + 1) (acc ++ (it :: its).map parseWpItem)

def try_fetch_all_posts_via_wpapi (world : World) (base : BStr) (fuel : Nat) :
    Option (List WpTuple) :=
  wpapiLoop world base fuel 1 []

/-! ### Sitemap discovery (lines 172–271) -/

def robotsUrl (base : BStr) : BStr := pyRstripSlash base ++ bs "/robots.txt"

/-- Lines 172–184. -/
def find_sitemap_candidates_from_robots (world : World) (base : BStr) : List BStr :=
  match world.fetchText (robotsUrl base) with
  | none => []
  | some text =>
    (pySplitlines text).filterMap (fun line =>
      if beginsWith (bs "sitemap:") (pyLower line) then
        match splitFirst 58 line with
        | some p => if pyStrip p.2 ≠ [] then some (pyStrip p.2) else none
        | none => none
      else none)

/-- Lines 186–203. -/
def collect_urls_from_sitemap (world : World) (sm : BStr) : List BStr :=
  match world.fetchXml sm with
  | none => []
  | some doc =>
    let out := doc.urlTags.filterMap (fun e =>
      e.loc.bind (fun s => if s = [] then none else some (pyStrip s)))
    if out = [] then
      doc.allLocs.filterMap (fun s => if s = [] then none else some (pyStrip s))
    else out

/-- Lines 205–217. -/
def expand_sitemap_index (world : World) (sm : BStr) : List BStr :=
  match world.fetchXml sm with
  | none => []
  | some doc =>
    doc.sitemapTags.filterMap (fun l =>
      l.bind (fun s => if s = [] then none else some (pyStrip s)))

/-- Lines 219–225. -/
def find_all_sitemaps (world : World) (base : BStr) : List BStr :=
  unique_keep_order
    ([pyRstripSlash base ++ bs "/sitemap.xml", pyRstripSlash base ++ bs "/sitemap_index.xml"]
      ++ find_sitemap_candidates_from_robots world base)

/-- The stream of locations appended by the nested loops of
`urls_from_post_sitemaps_only` (lines 234–245), before the shared seen-set. -/
def postStream (world : World) (base : BStr) : List BStr :=
  (find_all_sitemaps world base).flatMap (fun sm =>
    let work :=
      if endsWithB (bs "sitemap_index.xml") sm then
        match expand_sitemap_index world sm with
        | [] => [sm]
        | children => children
      else [sm]
    work.flatMap (fun w =>
      if hasPostHint w then collect_urls_from_sitemap world w else []))

/-- Lines 227–246: the shared seen-set over the stream, then
`unique_keep_order` as in the source. -/
def urls_from_post_sitemaps_only (world : World) (base : BStr) : List BStr :=
  unique_keep_order (unique_keep_order_go (postStream world base) [])

/-- The stream of locations appended by the loops of
`urls_from_generic_sitemaps` (lines 254–267). -/
def genericStream (world : World) (base : BStr) : List BStr :=
  (find_all_sitemaps world base).flatMap (fun sm =>
    match expand_sitemap_index world sm with
    | [] => collect_urls_from_sitemap world sm
    | children => children.flatMap (collect_urls_from_sitemap world))

/-- Lines 248–271. -/
def urls_from_generic_sitemaps (world : World) (base : BStr) : List BStr :=
  unique_keep_order
    (((unique_keep_order_go (genericStream world base) []).filter
        (fun u => beginsWith base u)).filter is_post_url)

/-- Stages 2 and 3 of `discover_all_post_urls` (lines 287–299). -/
def discoverStage23 (world : World) (base : BStr) : List BStr :=
  let ps := urls_from_post_sitemaps_only world base
  if ps ≠ [] then unique_keep_order (ps.map normalize_url)
  else
    let g := urls_from_generic_sitemaps world base
    if g ≠ [] then unique_keep_order (g.map normalize_url)
    else []

/-- `discover_all_post_urls` (lines 273–299); `none` when stage 1's loop does
not terminate within the fuel. -/
def discover_all_post_urls (world : World) (base : BStr) (fuel : Nat) :
    Option (List BStr) :=
  (try_fetch_all_posts_via_wpapi world base fuel).map (fun wp =>
    if wp ≠ [] then unique_keep_order (wp.map WpTuple.link)
    else discoverStage23 world base)

/-! ### Metadata extraction and aggregation (lines 303–360, 451–498) -/

/-- Truthiness filter for optional text (`x and x.get(...)` chains). -/
def optNonempty (o : Option BStr) : Option BStr :=
  o.bind (fun s => if s = [] then none else some s)

/-- Lines 303–306. -/
def extract_canonical (d : HtmlDoc) (fallback : BStr) : BStr :=
  match d.canonicalHref with
  | some h => if pyStrip h = [] then fallback else pyStrip h
  | none => fallback

/-- `re.sub(r"\s+", " ", s)` (ASCII whitespace), fuel-indexed. -/
def collapseWsF : Nat → BStr → BStr
  | 0, _ => []
  | _, [] => []
  | fuel + 1, c :: rest =>
    if isWsB c then (32 : Byte) :: collapseWsF fuel (rest.dropWhile isWsB)
    else c :: collapseWsF fuel rest

def collapseWs (s : BStr) : BStr := collapseWsF (s.length + 1) s

/-- The `(title, description, published_iso, canonical_url)` tuple. -/
structure MetaTuple where
  title : BStr
  desc : Option BStr
  pub : Option BStr
  canon : BStr
deriving DecidableEq, Repr

/-- `extract_metadata` (lines 308–360). -/
def extract_metadata (world : World) (url : BStr) : MetaTuple :=
  match world.fetchHtml url with
  | none =>
    let n := normalize_url url
    ⟨n, none, none, n⟩
  | some d =>
    let canon := normalize_url (extract_canonical d url)
    let title :=
      match optNonempty d.ogTitle with
      | some t => pyStrip t
      | none =>
        match optNonempty d.h1Text with
        | some t => t
        | none =>
          match optNonempty d.titleText with
          | some t => t
          | none => canon
    let desc0 :=
      match optNonempty d.ogDesc with
      | some t => some (pyStrip t)
      | none =>
        match optNonempty d.metaDesc with
        | some t => some (pyStrip t)
        | none =>
          match optNonempty d.firstPText with
          | some t => some t
          | none => none
    let desc := desc0.map (fun t0 =>
      let t := pyStrip (collapseWs t0)
      if t.length > 180 then t.take 177 ++ bs "..." else t)
    let pub :=
      match optNonempty d.articlePublished with
      | some t => some (pyStrip t)
      | none =>
        match optNonempty d.timeDatetime with
        | some t => some (pyStrip t)
        | none => none
    ⟨title, desc, pub, canon⟩

/-- One entry of `raw`: `(title, url, pub, desc, canon)` (line 479 appends
`(title, canon, pub_iso, desc, canon)`). -/
structure RawRec where
  title : BStr
  url : BStr
  pub : Option BStr
  desc : Option BStr
  canon : BStr
deriving DecidableEq, Repr

/-- The degraded tuple built on a worker exception (lines 474–478). -/
def degradedMeta (u : BStr) : MetaTuple :=
  let n := normalize_url u
  ⟨n, none, none, n⟩

def workerResult (world : World) (u : BStr) : MetaTuple :=
  if world.workerRaises u then degradedMeta u else extract_metadata world u

def rawOf (m : MetaTuple) : RawRec := ⟨m.title, m.canon, m.pub, m.desc, m.canon⟩

/-- The `raw` list built from the completed futures (lines 468–479);
`completed` is the completion order of `as_completed`. -/
def collectRaw (world : World) (completed : List BStr) : List RawRec :=
  completed.map (fun u => rawOf (workerResult world u))

/-- The `URL -> lastmod` assignments of `sitemap_lastmods` (lines 362–381),
in program order. -/
def lastmodEntries (world : World) (base : BStr) : List (BStr × BStr) :=
  (find_all_sitemaps world base).flatMap (fun sm =>
    match world.fetchXml sm with
    | none => []
    | some doc =>
      doc.urlTags.filterMap (fun e =>
        match e.loc with
        | some l =>
          if l = [] then none
          else
            match e.lastmod with
            | some lm => if lm = [] then none else some (normalize_url (pyStrip l), pyStrip lm)
            | none => none
        | none => none))

/-- `sitemap_lastmods(base).get(key)`: dict lookup, later assignments win. -/
def sitemap_lastmods (world : World) (base : BStr) (key : BStr) : Option BStr :=
  (lastmodEntries world base).foldl (fun acc kv => if kv.1 = key then some kv.2 else acc) none

/-- A Post Record `(title, url, pub, desc)`. -/
structure PostRec where
  title : BStr
  url : BStr
  pub : Option BStr
  desc : Option BStr
deriving DecidableEq, Repr

/-- Python truthiness of an optional string (`not pub_iso`). -/
def optFalsy (o : Option BStr) : Bool :=
  match o with
  | none => true
  | some s => s = []

/-- The canonical de-dup + lastmod fallback loop of `main` (lines 481–491). -/
def dedupLoop (lm : BStr → Option BStr) : List RawRec → List BStr → List PostRec
  | [], _ => []
  | r :: rest, seen =>
    let key := normalize_url r.canon
    if key ∈ seen then dedupLoop lm rest seen
    else
      { title := r.title, url := key,
        pub := if optFalsy r.pub then lm key else r.pub,
        desc := r.desc } :: dedupLoop lm rest (key :: seen)

def MAX_URLS : Nat := 10000

/-- `main` (lines 451–498) up to the README write: the exit-relevant outcome
`(code, posts)`; `order` is the completion order of the worker pool. -/
def mainRun (world : World) (base : BStr) (fuel : Nat)
    (order : List BStr → List BStr) : Option (Nat × List PostRec) :=
  (discover_all_post_urls world base fuel).map (fun urls =>
    if urls = [] then (1, [])
    else
      let urls2 := if urls.length > MAX_URLS then urls.take MAX_URLS else urls
      let raw := collectRaw world (order urls2)
      (0, dedupLoop (sitemap_lastmods world base) raw []))

/-- Modelled from the spec (§4.3 `walk(url, visited)`), which the code does
not implement: a recursive sitemap walk with a visited-set cycle guard.
Present only to compare the code's single-level expansion against the
spec's description of sitemap walking. -/
def walk_spec (world : World) : Nat → List BStr → BStr → List BStr
  | 0, _, _ => []
  | fuel + 1, visited, url =>
    if url ∈ visited then []
    else
      match expand_sitemap_index world url with
      | [] => collect_urls_from_sitemap world url
      | children => children.flatMap (walk_spec world fuel (url :: visited))

/-! ### Derived definitions used in the statements -/

/-- The query produced by `strip_utm`: tracking parameters removed, the rest
re-encoded. -/
def strippedQuery (u : BStr) : BStr :=
  pyUrlencode ((pyParseQsl (pyUrlparse u).query).filter (fun kv => !startsUtm kv.1))

/-- The components assembled by `normalize_url` just before its final
`urlunparse`. -/
def normComps (u : BStr) : UrlComponents :=
  let p := pyUrlparse (strip_utm u)
  let scheme := if pyLower p.scheme = [] then bs "https" else pyLower p.scheme
  let netloc := pyLower p.netloc
  let path0 := if p.path = [] then [(47 : Byte)] else p.path
  let path := if endsWithB (bs "/") path0 then path0 else path0 ++ [(47 : Byte)]
  ⟨scheme, netloc, path, p.params, p.query, p.fragment⟩

/-- Sufficient condition for idempotence of `normalize_url`: after tracking
stripping, the URL parses with a nonempty network location, or with a path
that is empty or begins with a single `/`.  Every well-formed absolute URL
with a host satisfies it. -/
def goodNormShape (u : BStr) : Bool :=
  let p := pyUrlparse (strip_utm u)
  !p.netloc.isEmpty || p.path.isEmpty ||
    (p.path.take 1 = [(47 : Byte)] && !(p.path.take 2 = [(47 : Byte), (47 : Byte)]))

/-- The Post Record the merge loop builds from a raw record under key `k`. -/
def mkPostFrom (lm : BStr → Option BStr) (k : BStr) (r : RawRec) : PostRec :=
  { title := r.title, url := k,
    pub := if optFalsy r.pub then lm k else r.pub, desc := r.desc }

/-- The first raw record whose canonical URL normalizes to `k`. -/
def firstWithKey (k : BStr) : List RawRec → Option RawRec
  | [] => none
  | r :: rest => if normalize_url r.canon = k then some r else firstWithKey k rest

/-- Termination of the stage-1 pagination loop on a given world. -/
def wpapiTerminates (w : World) (base : BStr) : Prop :=
  ∃ fuel r, try_fetch_all_posts_via_wpapi w base fuel = some r

/-! ### Concrete worlds used in counterexamples and witnesses -/

def baseH : BStr := bs "http://h"

/-- A world on which every request fails or returns nothing. -/
def emptyWorld : World :=
  { fetchJson := fun _ => .raise, fetchXml := fun _ => none,
    fetchText := fun _ => none, fetchHtml := fun _ => none,
    workerRaises := fun _ => false }

/-- Stage 1 returns a duplicated off-site link (page 2 ends the listing). -/
def offSiteApiWorld : World :=
  { emptyWorld with
    fetchJson := fun u =>
      if u = wpPageUrl baseH 1 then
        .list [⟨some (bs "T"), some (bs "http://evil/x"), none, none⟩,
               ⟨some (bs "T"), some (bs "http://evil/x"), none, none⟩]
      else .notList }

/-- robots.txt declares a post sitemap whose single location is off-site. -/
def offSiteSitemapWorld : World :=
  { emptyWorld with
    fetchText := fun u =>
      if u = robotsUrl baseH then some (bs "Sitemap: http://h/post-sitemap.xml") else none,
    fetchXml := fun u =>
      if u = bs "http://h/post-sitemap.xml" then
        some ⟨[⟨some (bs "http://evil/p"), none⟩], [], [bs "http://evil/p"]⟩
      else none }

/-- robots.txt declares a post sitemap with one on-site location that lacks a
trailing slash. -/
def slashlessWorld : World :=
  { emptyWorld with
    fetchText := fun u =>
      if u = robotsUrl baseH then some (bs "Sitemap: http://h/post-sitemap.xml") else none,
    fetchXml := fun u =>
      if u = bs "http://h/post-sitemap.xml" then
        some ⟨[⟨some (bs "http://h/a"), none⟩], [], [bs "http://h/a"]⟩
      else none }

/-- Stage 1 succeeds with one post; sitemap requests would fail. -/
def apiOnlyWorld : World :=
  { emptyWorld with
    fetchJson := fun u =>
      if u = wpPageUrl baseH 1 then
        .list [⟨some (bs "T"), some (bs "http://h/x"), none, none⟩]
      else .notList }

/-- Same WP API as `apiOnlyWorld` but with sitemaps present: used to show the
result does not depend on the sitemap part of the world. -/
def apiAndSitemapWorld : World :=
  { apiOnlyWorld with
    fetchXml := fun _ =>
      some ⟨[⟨some (bs "http://h/other"), none⟩], [], [bs "http://h/other"]⟩ }

/-- Nothing discoverable by the script, but the `/feed` endpoint would return
a syndication document with two items (the script never requests it). -/
def feedWorld : World :=
  { emptyWorld with
    fetchText := fun u =>
      if u = bs "http://h/feed" then
        some (bs "<rss><channel><item><link>http://h/p1</link></item><item><link>http://h/p2</link></item></channel></rss>")
      else none }

/-- robots.txt declares a sitemap index that lists itself as its only child;
its only `<loc>` text is its own URL. -/
def cycWorld : World :=
  { emptyWorld with
    fetchText := fun u =>
      if u = robotsUrl baseH then some (bs "Sitemap: http://h/blog/sm.xml") else none,
    fetchXml := fun u =>
      if u = bs "http://h/blog/sm.xml" then
        some ⟨[], [some (bs "http://h/blog/sm.xml")], [bs "http://h/blog/sm.xml"]⟩
      else none }

/-- Every page of the listing endpoint returns a non-empty array. -/
def alwaysFullWorld : World :=
  { emptyWorld with fetchJson := fun _ => .list [⟨none, none, none, none⟩] }

/-- The first listing page is already empty. -/
def emptyPageWorld : World :=
  { emptyWorld with fetchJson := fun _ => .list [] }

/-- Page 1 returns one post, page 2 raises. -/
def raisePage2World : World :=
  { emptyWorld with
    fetchJson := fun u =>
      if u = wpPageUrl baseH 1 then .list [⟨some (bs "T"), some (bs "http://h/x"), none, none⟩]
      else if u = wpPageUrl baseH 2 then .raise
      else .notList }

/-- A world whose worker pool raises on one URL and whose page fetches fail. -/
def workerFailWorld : World :=
  { emptyWorld with workerRaises := fun u => u = bs "http://h/w1" }

/-! ### Shape predicates for the `urlsplit`/`urlunsplit` analysis -/

/-- Not one of the unsafe bytes tab, LF, CR removed by `urlsplit`. -/
def cleanByte (x : Byte) : Bool :=
  !(x = (9 : Byte) || x = (10 : Byte) || x = (13 : Byte))

/-- The netloc/path portion assembled by `urlunsplit` (its `url` after the
netloc step). -/
def unsplitPath (r : SplitResult) : BStr :=
  if r.netloc ≠ [] ∨
      (r.scheme ≠ [] ∧ r.scheme ∈ usesNetloc ∧ r.path.take 2 ≠ [(47 : Byte), (47 : Byte)]) then
    (47 : Byte) :: (47 : Byte) :: (r.netloc ++
      (if r.path ≠ [] ∧ r.path.take 1 ≠ [(47 : Byte)] then (47 : Byte) :: r.path else r.path))
  else r.path

/-- Everything `urlunsplit` emits before the query/fragment tails. -/
def unsplitPre (r : SplitResult) : BStr :=
  if r.scheme ≠ [] then r.scheme ++ (58 : Byte) :: unsplitPath r else unsplitPath r

/-- Structural facts that hold of every `pyUrlsplit` result. -/
structure SplitFacts (r : SplitResult) : Prop where
  scheme_ok : r.scheme = [] ∨ goodSchemePre r.scheme = true
  scheme_lower : pyLower r.scheme = r.scheme
  netloc_ok : ∀ x ∈ r.netloc, netlocDelim x = false ∧ cleanByte x = true
  path_ok : ∀ x ∈ r.path, x ≠ (63 : Byte) ∧ x ≠ (35 : Byte) ∧ cleanByte x = true
  query_ok : ∀ x ∈ r.query, x ≠ (35 : Byte) ∧ cleanByte x = true
  fragment_ok : ∀ x ∈ r.fragment, cleanByte x = true
  netloc_path : r.netloc ≠ [] → r.path = [] ∨ r.path.take 1 = [(47 : Byte)]
  path_head32 : r.scheme = [] → ∀ x, r.path.take 1 = [x] → 32 < x.val
  scheme_guard : r.scheme = [] → r.netloc = [] →
    ∀ pre post, splitFirst 58 r.path = some (pre, post) → goodSchemePre pre = false

/-- Structural facts that hold of every `pyUrlparse` result. -/
structure ParseFacts (c : UrlComponents) : Prop where
  scheme_ok : c.scheme = [] ∨ goodSchemePre c.scheme = true
  scheme_lower : pyLower c.scheme = c.scheme
  netloc_ok : ∀ x ∈ c.netloc, netlocDelim x = false ∧ cleanByte x = true
  path_ok : ∀ x ∈ c.path, x ≠ (63 : Byte) ∧ x ≠ (35 : Byte) ∧ cleanByte x = true
  params_ok : ∀ x ∈ c.params,
    x ≠ (47 : Byte) ∧ x ≠ (63 : Byte) ∧ x ≠ (35 : Byte) ∧ cleanByte x = true
  params_scheme : c.params ≠ [] → c.scheme ∈ usesParams
  split_fix : c.scheme ∈ usesParams →
    splitParams (joinParams c.path c.params) = (c.path, c.params)
  query_ok : ∀ x ∈ c.query, x ≠ (35 : Byte) ∧ cleanByte x = true
  fragment_ok : ∀ x ∈ c.fragment, cleanByte x = true
  netloc_path : c.netloc ≠ [] → c.path = [] ∨ c.path.take 1 = [(47 : Byte)]
  path_head32 : c.scheme = [] → ∀ x, c.path.take 1 = [x] → 32 < x.val
  scheme_guard : c.scheme = [] → c.netloc = [] →
    ∀ pre post, splitFirst 58 c.path = some (pre, post) → goodSchemePre pre = false

/-- Conditions under which `pyUrlparse` recovers the exact components from
`pyUrlunparse` — satisfied by the components `normalize_url` assembles on
inputs of good shape. -/
structure GoodComps (c : UrlComponents) : Prop where
  scheme_good : goodSchemePre c.scheme = true
  scheme_lower : pyLower c.scheme = c.scheme
  netloc_ok : ∀ x ∈ c.netloc, netlocDelim x = false ∧ cleanByte x = true
  netloc_lower : pyLower c.netloc = c.netloc
  path_ok : ∀ x ∈ c.path, x ≠ (63 : Byte) ∧ x ≠ (35 : Byte) ∧ cleanByte x = true
  path_slash1 : c.path.take 1 = [(47 : Byte)]
  path_end : endsWithB (bs "/") c.path = true
  netloc_empty_path : c.netloc = [] → c.path.take 2 ≠ [(47 : Byte), (47 : Byte)]
  params_ok : ∀ x ∈ c.params,
    x ≠ (47 : Byte) ∧ x ≠ (63 : Byte) ∧ x ≠ (35 : Byte) ∧ cleanByte x = true
  params_scheme : c.params ≠ [] → c.scheme ∈ usesParams
  split_fix : c.scheme ∈ usesParams →
    splitParams (joinParams c.path c.params) = (c.path, c.params)
  query_ok : ∀ x ∈ c.query, x ≠ (35 : Byte) ∧ cleanByte x = true
  fragment_ok : ∀ x ∈ c.fragment, cleanByte x = true

/-! ## Lemmas about `unique_keep_order` -/

theorem unique_keep_order_go_sublist (l : List BStr) :
    ∀ seen, (unique_keep_order_go l seen).Sublist l := by
  induction l with
  | nil => intro seen; simp [unique_keep_order_go]
  | cons a as ih =>
    intro seen
    simp only [unique_keep_order_go]
    split
    · exact (ih _).trans (List.sublist_cons_self a as)
    · exact List.Sublist.cons₂ a (ih _)

theorem unique_keep_order_go_not_mem_seen {l : List BStr} :
    ∀ {seen : List BStr} {x : BStr}, x ∈ unique_keep_order_go l seen → x ∉ seen := by
  induction l with
  | nil => intro seen x hx; simp [unique_keep_order_go] at hx
  | cons a as ih =>
    intro seen x hx
    simp only [unique_keep_order_go] at hx
    split at hx
    · exact ih hx
    · rcases List.mem_cons.mp hx with rfl | hx'
      · assumption
      · intro hxs
        exact ih hx' (List.mem_cons_of_mem _ hxs)

theorem unique_keep_order_go_nodup (l : List BStr) :
    ∀ seen, (unique_keep_order_go l seen).Nodup := by
  induction l with
  | nil => intro seen; simp [unique_keep_order_go]
  | cons a as ih =>
    intro seen
    simp only [unique_keep_order_go]
    split
    · exact ih _
    · refine List.nodup_cons.mpr ⟨?_, ih _⟩
      intro ha
      exact unique_keep_order_go_not_mem_seen ha (List.mem_cons_self a seen)

theorem unique_keep_order_nodup (l : List BStr) : (unique_keep_order l).Nodup :=
  unique_keep_order_go_nodup l []

theorem unique_keep_order_sublist (l : List BStr) : (unique_keep_order l).Sublist l :=
  unique_keep_order_go_sublist l []

theorem unique_keep_order_go_eq_self {l : List BStr} :
    ∀ {seen}, l.Nodup → (∀ x ∈ l, x ∉ seen) → unique_keep_order_go l seen = l := by
  induction l with
  | nil => intro seen _ _; rfl
  | cons a as ih =>
    intro seen hnd hdisj
    simp only [unique_keep_order_go]
    rw [if_neg (hdisj a (List.mem_cons_self a as))]
    congr 1
    refine ih (List.nodup_cons.mp hnd).2 ?_
    intro x hx hmem
    rcases List.mem_cons.mp hmem with rfl | h
    · exact (List.nodup_cons.mp hnd).1 hx
    · exact hdisj x (List.mem_cons_of_mem _ hx) h

theorem unique_keep_order_eq_self {l : List BStr} (h : l.Nodup) : unique_keep_order l = l :=
  unique_keep_order_go_eq_self h (by intro x _ hx; exact absurd hx (List.not_mem_nil x))

/-! ## Lemmas about the sitemap stages -/

theorem urls_from_generic_sitemaps_eq (w : World) (b : BStr) :
    urls_from_generic_sitemaps w b =
      ((unique_keep_order (genericStream w b)).filter (fun u => beginsWith b u)).filter
        is_post_url := by
  unfold urls_from_generic_sitemaps
  exact unique_keep_order_eq_self
    (((unique_keep_order_nodup _).filter _).filter _)

theorem urls_from_post_sitemaps_only_eq (w : World) (b : BStr) :
    urls_from_post_sitemaps_only w b = unique_keep_order (postStream w b) :=
  unique_keep_order_eq_self (unique_keep_order_go_nodup _ _)

theorem mem_urls_from_generic_sitemaps {w : World} {b u : BStr}
    (h : u ∈ urls_from_generic_sitemaps w b) :
    u ∈ genericStream w b ∧ beginsWith b u = true ∧ is_post_url u = true := by
  rw [urls_from_generic_sitemaps_eq] at h
  rcases List.mem_filter.mp h with ⟨h1, hpost⟩
  rcases List.mem_filter.mp h1 with ⟨h2, hbegin⟩
  exact ⟨(unique_keep_order_sublist _).subset h2, hbegin, hpost⟩

/-! ## Lemmas about the aggregation merge loop -/

theorem dedupLoop_filter (lm : BStr → Option BStr) (raw : List RawRec) :
    ∀ (seen : List BStr) (k : BStr),
      (dedupLoop lm raw seen).filter (fun p => decide (p.url = k)) =
        if k ∈ seen then []
        else
          match firstWithKey k raw with
          | none => []
          | some r => [mkPostFrom lm k r] := by
  induction raw with
  | nil =>
    intro seen k
    simp only [dedupLoop, List.filter_nil, firstWithKey]
    split <;> rfl
  | cons r rest ih =>
    intro seen k
    simp only [dedupLoop, firstWithKey]
    generalize normalize_url r.canon = key
    by_cases h1 : key ∈ seen
    · rw [if_pos h1, ih seen k]
      by_cases hk : k ∈ seen
      · rw [if_pos hk, if_pos hk]
      · have hne : key ≠ k := fun he => hk (he ▸ h1)
        rw [if_neg hk, if_neg hk, if_neg hne]
    · rw [if_neg h1]
      by_cases h2 : key = k
      · subst h2
        rw [List.filter_cons, if_pos (by simp), ih (key :: seen) key,
          if_pos (List.mem_cons_self _ _), if_neg h1, if_pos rfl]
        rfl
      · rw [List.filter_cons, if_neg (by simp [h2]), ih (key :: seen) k, if_neg h2]
        have hmem : (k ∈ key :: seen) ↔ k ∈ seen := by
          constructor
          · intro h
            rcases List.mem_cons.mp h with he | h
            · exact absurd he.symm h2
            · exact h
          · exact List.mem_cons_of_mem _
        by_cases hk : k ∈ seen
        · rw [if_pos (hmem.mpr hk), if_pos hk]
        · rw [if_neg (fun h => hk (hmem.mp h)), if_neg hk]

theorem dedupLoop_keys_nodup (lm : BStr → Option BStr) (raw : List RawRec) :
    ∀ seen, ((dedupLoop lm raw seen).map PostRec.url).Nodup ∧
      ∀ u ∈ (dedupLoop lm raw seen).map PostRec.url, u ∉ seen := by
  induction raw with
  | nil => intro seen; simp [dedupLoop]
  | cons r rest ih =>
    intro seen
    simp only [dedupLoop]
    generalize normalize_url r.canon = key
    by_cases h1 : key ∈ seen
    · rw [if_pos h1]
      exact ⟨(ih seen).1, (ih seen).2⟩
    · rw [if_neg h1]
      constructor
      · simp only [List.map_cons]
        refine List.nodup_cons.mpr ⟨?_, (ih _).1⟩
        intro hmem
        exact (ih _).2 _ hmem (List.mem_cons_self _ _)
      · intro u hu
        rcases List.mem_cons.mp hu with rfl | hu'
        · exact h1
        · intro huseen
          exact (ih _).2 _ hu' (List.mem_cons_of_mem _ huseen)

/-! ## Lemmas about the parallel extraction batch -/

theorem collectRaw_length (w : World) (completed : List BStr) :
    (collectRaw w completed).length = completed.length := by
  simp [collectRaw]

theorem collectRaw_getElem (w : World) (completed : List BStr) (i : Nat) :
    (collectRaw w completed)[i]? = completed[i]?.map (fun u => rawOf (workerResult w u)) := by
  simp [collectRaw]

/-! ## Lemmas about the stage-1 pagination loop -/

theorem wpapiLoop_congr {w1 w2 : World} (h : w2.fetchJson = w1.fetchJson) (base : BStr) :
    ∀ (fuel page : Nat) (acc : List WpTuple),
      wpapiLoop w2 base fuel page acc = wpapiLoop w1 base fuel page acc := by
  intro fuel
  induction fuel with
  | zero => intro _ _; rfl
  | succ n ih =>
    intro page acc
    simp only [wpapiLoop, h]
    cases w1.fetchJson (wpPageUrl base page) with
    | raise => rfl
    | notList => rfl
    | list items =>
      cases items with
      | nil => rfl
      | cons it its => exact ih _ _

theorem wpapiLoop_stops (w : World) (base : BStr) (k : Nat)
    (hstop : w.fetchJson (wpPageUrl base k) = .notList ∨
      w.fetchJson (wpPageUrl base k) = .list [] ∨ w.fetchJson (wpPageUrl base k) = .raise) :
    ∀ (fuel page : Nat) (acc : List WpTuple), page ≤ k → k < page + fuel →
      (∀ p, page ≤ p → p < k → ∃ it its, w.fetchJson (wpPageUrl base p) = .list (it :: its)) →
      ∃ r, wpapiLoop w base fuel page acc = some r := by
  intro fuel
  induction fuel with
  | zero =>
    intro page acc h1 h2 _
    omega
  | succ n ih =>
    intro page acc h1 h2 hfull
    by_cases hpk : page = k
    · subst hpk
      simp only [wpapiLoop]
      rcases hstop with h | h | h <;> rw [h]
      · exact ⟨acc, rfl⟩
      · exact ⟨acc, rfl⟩
      · exact ⟨[], rfl⟩
    · rcases hfull page le_rfl (by omega) with ⟨it, its, hit⟩
      simp only [wpapiLoop, hit]
      exact ih (page + 1) _ (by omega) (by omega)
        (fun p hp1 hp2 => hfull p (by omega) hp2)

theorem wpapiLoop_raise (w : World) (base : BStr) (k : Nat)
    (hraise : w.fetchJson (wpPageUrl base k) = .raise) :
    ∀ (fuel page : Nat) (acc : List WpTuple), page ≤ k → k < page + fuel →
      (∀ p, page ≤ p → p < k → ∃ it its, w.fetchJson (wpPageUrl base p) = .list (it :: its)) →
      wpapiLoop w base fuel page acc = some [] := by
  intro fuel
  induction fuel with
  | zero =>
    intro page acc h1 h2 _
    omega
  | succ n ih =>
    intro page acc h1 h2 hfull
    by_cases hpk : page = k
    · subst hpk
      simp only [wpapiLoop, hraise]
    · rcases hfull page le_rfl (by omega) with ⟨it, its, hit⟩
      simp only [wpapiLoop, hit]
      exact ih (page + 1) _ (by omega) (by omega)
        (fun p hp1 hp2 => hfull p (by omega) hp2)

theorem wpapiLoop_diverges (w : World) (base : BStr)
    (hfull : ∀ p, 1 ≤ p → ∃ it its, w.fetchJson (wpPageUrl base p) = .list (it :: its)) :
    ∀ (fuel page : Nat) (acc : List WpTuple), 1 ≤ page →
      wpapiLoop w base fuel page acc = none := by
  intro fuel
  induction fuel with
  | zero => intro _ _ _; rfl
  | succ n ih =>
    intro page acc hp
    rcases hfull page hp with ⟨it, its, hit⟩
    simp only [wpapiLoop, hit]
    exact ih (page + 1) _ (by omega)

/-! ## Lower-casing lemmas -/

theorem pyLowerByte_idem (c : Byte) : pyLowerByte (pyLowerByte c) = pyLowerByte c := by
  unfold pyLowerByte
  by_cases h : 65 ≤ c.val ∧ c.val ≤ 90
  · rw [if_pos h]
    have hval : (c + (32 : Byte)).val = c.val + 32 := by
      rw [Fin.val_add]
      have h32 : ((32 : Byte) : Nat) = 32 := rfl
      rw [h32]
      exact Nat.mod_eq_of_lt (by omega)
    rw [if_neg (by rw [hval]; omega)]
  · rw [if_neg h, if_neg h]

theorem pyLower_idem (s : BStr) : pyLower (pyLower s) = pyLower s := by
  unfold pyLower
  rw [List.map_map]
  exact List.map_congr_left (fun a _ => by
    simp only [Function.comp_apply]
    exact pyLowerByte_idem a)

/-! ## Claim theorems (C1, C3–C10) -/

/-- Claim C1 (amended): if the content-API stage yields at least one URL, the
Discovery Result is built from it alone (no sitemap stage is consulted — the
result is unchanged under any change to the non-API part of the world); if
the content-API stage yields nothing and the post-only-sitemap stage yields a
non-empty list, the Discovery Result is that list with each URL normalized
and insertion-order-deduplicated — not the verbatim list. -/
theorem C1_cascade_short_circuit :
    (∀ (w1 w2 : World) (base : BStr) (fuel : Nat) (wp : List WpTuple),
      try_fetch_all_posts_via_wpapi w1 base fuel = some wp → wp ≠ [] →
      w2.fetchJson = w1.fetchJson →
      discover_all_post_urls w1 base fuel = some (unique_keep_order (wp.map WpTuple.link)) ∧
      discover_all_post_urls w2 base fuel = discover_all_post_urls w1 base fuel) ∧
    (∀ (w : World) (base : BStr) (fuel : Nat),
      try_fetch_all_posts_via_wpapi w base fuel = some [] →
      urls_from_post_sitemaps_only w base ≠ [] →
      discover_all_post_urls w base fuel =
        some (unique_keep_order ((urls_from_post_sitemaps_only w base).map normalize_url))) := by
  constructor
  · intro w1 w2 base fuel wp hwp hne hjson
    have e2 : try_fetch_all_posts_via_wpapi w2 base fuel =
        try_fetch_all_posts_via_wpapi w1 base fuel :=
      wpapiLoop_congr hjson base fuel 1 []
    constructor
    · unfold discover_all_post_urls
      rw [hwp, Option.map_some', if_pos hne]
    · unfold discover_all_post_urls
      rw [e2, hwp, Option.map_some', Option.map_some', if_pos hne, if_pos hne]
  · intro w base fuel h0 hps
    unfold discover_all_post_urls
    rw [h0, Option.map_some', if_neg (by simp)]
    unfold discoverStage23
    rw [if_pos hps]

/-- Claim C1, counterexample: with the content API unavailable and a post
sitemap whose single location lacks a trailing slash, the Discovery Result is
the normalized list, not stage 2's list verbatim. -/
theorem C1_counterexample :
    try_fetch_all_posts_via_wpapi slashlessWorld baseH 2 = some [] ∧
    urls_from_post_sitemaps_only slashlessWorld baseH = [bs "http://h/a"] ∧
    discover_all_post_urls slashlessWorld baseH 2 = some [bs "http://h/a/"] ∧
    ¬ discover_all_post_urls slashlessWorld baseH 2 = some [bs "http://h/a"] := by
  decide

theorem C1_witness :
    discover_all_post_urls apiOnlyWorld baseH 3 =
      some (unique_keep_order
        ([parseWpItem ⟨some (bs "T"), some (bs "http://h/x"), none, none⟩].map WpTuple.link)) ∧
    discover_all_post_urls apiAndSitemapWorld baseH 3 =
      discover_all_post_urls apiOnlyWorld baseH 3 ∧
    discover_all_post_urls slashlessWorld baseH 2 =
      some (unique_keep_order
        ((urls_from_post_sitemaps_only slashlessWorld baseH).map normalize_url)) :=
  ⟨(C1_cascade_short_circuit.1 apiOnlyWorld apiAndSitemapWorld baseH 3
      [parseWpItem ⟨some (bs "T"), some (bs "http://h/x"), none, none⟩]
      (by decide) (by decide) rfl).1,
   (C1_cascade_short_circuit.1 apiOnlyWorld apiAndSitemapWorld baseH 3
      [parseWpItem ⟨some (bs "T"), some (bs "http://h/x"), none, none⟩]
      (by decide) (by decide) rfl).2,
   C1_cascade_short_circuit.2 slashlessWorld baseH 2 (by decide) (by decide)⟩

/-- Claim C3: in the Post Record collection built by the merge loop of
`main`, every canonical key appears at most once (the key projection has no
duplicates), and for any key that occurs among the raw extraction results the
collection holds exactly the record built from the first-encountered raw
result with that key — later results with the same key are dropped. -/
theorem C3_dedup_unique_first_wins :
    (∀ (lm : BStr → Option BStr) (raw : List RawRec),
      ((dedupLoop lm raw []).map PostRec.url).Nodup) ∧
    (∀ (lm : BStr → Option BStr) (raw : List RawRec) (k : BStr) (r : RawRec),
      firstWithKey k raw = some r →
      (dedupLoop lm raw []).filter (fun p => decide (p.url = k)) = [mkPostFrom lm k r]) := by
  constructor
  · intro lm raw
    exact (dedupLoop_keys_nodup lm raw []).1
  · intro lm raw k r hfind
    rw [dedupLoop_filter lm raw [] k, if_neg (List.not_mem_nil k), hfind]

theorem C3_witness :
    firstWithKey (bs "http://h/a/")
        [⟨bs "T1", bs "http://h/a/", none, none, bs "http://h/a"⟩,
         ⟨bs "T2", bs "http://h/a/", some (bs "2024-01-01"), some (bs "D"), bs "http://h/a/"⟩] =
      some ⟨bs "T1", bs "http://h/a/", none, none, bs "http://h/a"⟩ ∧
    (dedupLoop (fun _ => none)
        [⟨bs "T1", bs "http://h/a/", none, none, bs "http://h/a"⟩,
         ⟨bs "T2", bs "http://h/a/", some (bs "2024-01-01"), some (bs "D"), bs "http://h/a/"⟩]
        []).filter (fun p => decide (p.url = bs "http://h/a/")) =
      [mkPostFrom (fun _ => none) (bs "http://h/a/")
        ⟨bs "T1", bs "http://h/a/", none, none, bs "http://h/a"⟩] :=
  ⟨by decide,
   C3_dedup_unique_first_wins.2 (fun _ => none) _ _ _ (by decide)⟩

/-- Claim C5 (amended): the generic-sitemap stage restricts its result to the
base origin and to post-classified URLs, with no duplicates, preserving
first-seen order (a sublist of the insertion-order-deduplicated stream); the
post-only-sitemap stage deduplicates preserving first-seen order but applies
no origin restriction; the content-API stage applies neither (its results are
deduplicated only later, by the cascade). -/
theorem C5_stage_properties :
    (∀ (w : World) (b u : BStr), u ∈ urls_from_generic_sitemaps w b →
      beginsWith b u = true ∧ is_post_url u = true) ∧
    (∀ (w : World) (b : BStr), (urls_from_generic_sitemaps w b).Nodup ∧
      (urls_from_generic_sitemaps w b).Sublist (unique_keep_order (genericStream w b))) ∧
    (∀ (w : World) (b : BStr), (urls_from_post_sitemaps_only w b).Nodup ∧
      urls_from_post_sitemaps_only w b = unique_keep_order (postStream w b)) := by
  refine ⟨?_, ?_, ?_⟩
  · intro w b u hu
    exact (mem_urls_from_generic_sitemaps hu).2
  · intro w b
    rw [urls_from_generic_sitemaps_eq]
    exact ⟨((unique_keep_order_nodup _).filter _).filter _,
      (List.filter_sublist _).trans (List.filter_sublist _)⟩
  · intro w b
    rw [urls_from_post_sitemaps_only_eq]
    exact ⟨unique_keep_order_nodup _, rfl⟩

/-- Claim C5, counterexample: stage 1 can return a duplicated off-site URL
(the claim's origin and no-duplicates guarantees fail there), and stage 2 can
return an off-site URL. -/
theorem C5_counterexample :
    (try_fetch_all_posts_via_wpapi offSiteApiWorld baseH 3).map
        (fun l => l.map WpTuple.link) =
      some [bs "http://evil/x/", bs "http://evil/x/"] ∧
    ¬ ([bs "http://evil/x/", bs "http://evil/x/"] : List BStr).Nodup ∧
    beginsWith baseH (bs "http://evil/x/") = false ∧
    urls_from_post_sitemaps_only offSiteSitemapWorld baseH = [bs "http://evil/p"] ∧
    beginsWith baseH (bs "http://evil/p") = false := by
  decide

theorem C5_witness :
    (bs "http://h/blog/sm.xml") ∈ urls_from_generic_sitemaps cycWorld baseH ∧
    (beginsWith baseH (bs "http://h/blog/sm.xml") = true ∧
      is_post_url (bs "http://h/blog/sm.xml") = true) :=
  ⟨by decide, C5_stage_properties.1 cycWorld baseH _ (by decide)⟩

/-- Claim C6 (amended): when the content-API, post-only-sitemap and
generic-sitemap stages all yield nothing, discovery returns the empty list
and the run exits with code 1 producing no Post Records — the script has no
feed or homepage fallback, so a `/feed` endpoint with syndication items is
never consulted. -/
theorem C6_no_feed_fallback :
    ∀ (w : World) (base : BStr) (fuel : Nat) (order : List BStr → List BStr),
      try_fetch_all_posts_via_wpapi w base fuel = some [] →
      urls_from_post_sitemaps_only w base = [] →
      urls_from_generic_sitemaps w base = [] →
      discover_all_post_urls w base fuel = some [] ∧
      mainRun w base fuel order = some (1, []) := by
  intro w base fuel order h1 h2 h3
  have hd : discover_all_post_urls w base fuel = some [] := by
    unfold discover_all_post_urls
    rw [h1, Option.map_some', if_neg (by simp)]
    simp only [discoverStage23, h2, h3]
    simp
  refine ⟨hd, ?_⟩
  unfold mainRun
  rw [hd, Option.map_some', if_pos rfl]

/-- Claim C6, counterexample: a world with no API, no sitemaps and no robots
file, whose `/feed` URL does return a two-item syndication document, still
produces an empty Discovery Result and a run outcome of exit code 1 with
zero Post Records (the code never requests `/feed`). -/
theorem C6_counterexample :
    feedWorld.fetchText (bs "http://h/feed") =
      some (bs "<rss><channel><item><link>http://h/p1</link></item><item><link>http://h/p2</link></item></channel></rss>") ∧
    discover_all_post_urls feedWorld baseH 2 = some [] ∧
    mainRun feedWorld baseH 2 id = some (1, []) := by
  decide

theorem C6_witness :
    discover_all_post_urls feedWorld baseH 2 = some [] ∧
    mainRun feedWorld baseH 2 id = some (1, []) :=
  C6_no_feed_fallback feedWorld baseH 2 id (by decide) (by decide) (by decide)

/-- Claim C7 (amended): sitemap expansion is single-level — every URL in the
generic-stage result is drawn from the one-level location stream (children of
an index are parsed as urlsets and never re-expanded), so the walk always
returns a finite list; on a sitemap index that references itself as its only
child, the stage terminates and returns the bare `<loc>` harvest of the index
itself.  There is no visited-set. -/
theorem C7_walk_single_level :
    (∀ (w : World) (b u : BStr), u ∈ urls_from_generic_sitemaps w b →
      u ∈ genericStream w b) ∧
    urls_from_generic_sitemaps cycWorld baseH = [bs "http://h/blog/sm.xml"] := by
  constructor
  · intro w b u hu
    exact (mem_urls_from_generic_sitemaps hu).1
  · decide

/-- Claim C7, counterexample: on a self-referencing sitemap index the code
returns the index's own URL as a "location" (harvested by the bare-`loc`
fallback), while the spec's visited-set walk reaches no location at all —
the result is not "the locations reachable before the cycle is detected",
and no visited-set is involved. -/
theorem C7_counterexample :
    urls_from_generic_sitemaps cycWorld baseH = [bs "http://h/blog/sm.xml"] ∧
    expand_sitemap_index cycWorld (bs "http://h/blog/sm.xml") =
      [bs "http://h/blog/sm.xml"] ∧
    walk_spec cycWorld 5 [] (bs "http://h/blog/sm.xml") = [] := by
  decide

theorem C7_witness :
    (bs "http://h/blog/sm.xml") ∈ urls_from_generic_sitemaps cycWorld baseH ∧
    (bs "http://h/blog/sm.xml") ∈ genericStream cycWorld baseH :=
  ⟨by decide, C7_walk_single_level.1 cycWorld baseH _ (by decide)⟩

/-- Claim C8 (amended): the pagination loop stops at the first page whose
response is empty, not an array, or an exception — there is no page-count
ceiling, and a server that keeps returning non-empty pages makes the loop
run forever. -/
theorem C8_pagination_termination :
    (∀ (w : World) (base : BStr) (k fuel : Nat), 1 ≤ k → k < 1 + fuel →
      (∀ p, 1 ≤ p → p < k →
        ∃ it its, w.fetchJson (wpPageUrl base p) = .list (it :: its)) →
      (w.fetchJson (wpPageUrl base k) = .notList ∨
        w.fetchJson (wpPageUrl base k) = .list [] ∨
        w.fetchJson (wpPageUrl base k) = .raise) →
      ∃ r, try_fetch_all_posts_via_wpapi w base fuel = some r) ∧
    (∀ (w : World) (base : BStr),
      (∀ p, 1 ≤ p → ∃ it its, w.fetchJson (wpPageUrl base p) = .list (it :: its)) →
      ¬ wpapiTerminates w base) := by
  constructor
  · intro w base k fuel h1 h2 hfull hstop
    exact wpapiLoop_stops w base k hstop fuel 1 [] h1 h2 hfull
  · rintro w base hfull ⟨fuel, r, hr⟩
    unfold try_fetch_all_posts_via_wpapi at hr
    rw [wpapiLoop_diverges w base hfull fuel 1 [] (le_refl 1)] at hr
    exact Option.noConfusion hr

/-- Claim C8, counterexample: a server whose every listing page is a
non-empty array makes the stage-1 loop run forever — no safety ceiling
stops it, contrary to the claim that it terminates for every sequence of
server responses. -/
theorem C8_counterexample : ¬ wpapiTerminates alwaysFullWorld baseH := by
  rintro ⟨fuel, r, hr⟩
  unfold try_fetch_all_posts_via_wpapi at hr
  rw [wpapiLoop_diverges alwaysFullWorld baseH
    (fun p _ => ⟨⟨none, none, none, none⟩, [], rfl⟩) fuel 1 [] (le_refl 1)] at hr
  exact Option.noConfusion hr

theorem C8_witness :
    emptyPageWorld.fetchJson (wpPageUrl baseH 1) = .list [] ∧
    (∃ r, try_fetch_all_posts_via_wpapi emptyPageWorld baseH 1 = some r) :=
  ⟨by decide,
   C8_pagination_termination.1 emptyPageWorld baseH 1 1 (by omega) (by omega)
     (fun p hp1 hp2 => absurd hp1 (by omega))
     (Or.inr (Or.inl (by decide)))⟩

/-- Claim C9: when the page fetch fails, `extract_metadata` returns the
degraded tuple `(normalized url, none, none, normalized url)`; a worker
exception during parallel extraction likewise contributes the degraded
record for that one URL, and the batch still produces one record per
completed URL. -/
theorem C9_degraded_extraction :
    (∀ (w : World) (url : BStr), w.fetchHtml url = none →
      extract_metadata w url =
        ⟨normalize_url url, none, none, normalize_url url⟩) ∧
    (∀ (w : World) (completed : List BStr),
      (collectRaw w completed).length = completed.length) ∧
    (∀ (w : World) (completed : List BStr) (i : Nat) (u : BStr),
      completed[i]? = some u → w.workerRaises u = true →
      (collectRaw w completed)[i]? = some (rawOf (degradedMeta u))) := by
  refine ⟨?_, collectRaw_length, ?_⟩
  · intro w url h
    unfold extract_metadata
    rw [h]
  · intro w completed i u hi hw
    rw [collectRaw_getElem, hi, Option.map_some']
    unfold workerResult
    rw [if_pos hw]

theorem C9_witness :
    workerFailWorld.fetchHtml (bs "http://h/x") = none ∧
    extract_metadata workerFailWorld (bs "http://h/x") =
      ⟨normalize_url (bs "http://h/x"), none, none, normalize_url (bs "http://h/x")⟩ ∧
    ([bs "http://h/w1", bs "http://h/w2"] : List BStr)[0]? = some (bs "http://h/w1") ∧
    workerFailWorld.workerRaises (bs "http://h/w1") = true ∧
    (collectRaw workerFailWorld [bs "http://h/w1", bs "http://h/w2"])[0]? =
      some (rawOf (degradedMeta (bs "http://h/w1"))) ∧
    (collectRaw workerFailWorld [bs "http://h/w1", bs "http://h/w2"]).length = 2 :=
  ⟨by decide,
   C9_degraded_extraction.1 workerFailWorld (bs "http://h/x") (by decide),
   by decide, by decide,
   C9_degraded_extraction.2.2 workerFailWorld [bs "http://h/w1", bs "http://h/w2"] 0
     (bs "http://h/w1") (by decide) (by decide),
   by decide⟩

/-- Claim C10: if any page request raises during content-API pagination —
even after non-empty earlier pages — stage 1 returns the empty list,
discarding everything collected so far, and the cascade falls through to
sitemap discovery. -/
theorem C10_stage1_all_or_nothing :
    ∀ (w : World) (base : BStr) (k fuel : Nat), 1 ≤ k → k < 1 + fuel →
      (∀ p, 1 ≤ p → p < k →
        ∃ it its, w.fetchJson (wpPageUrl base p) = .list (it :: its)) →
      w.fetchJson (wpPageUrl base k) = .raise →
      try_fetch_all_posts_via_wpapi w base fuel = some [] ∧
      discover_all_post_urls w base fuel = some (discoverStage23 w base) := by
  intro w base k fuel h1 h2 hfull hraise
  have hloop : try_fetch_all_posts_via_wpapi w base fuel = some [] :=
    wpapiLoop_raise w base k hraise fuel 1 [] h1 h2 hfull
  refine ⟨hloop, ?_⟩
  unfold discover_all_post_urls
  rw [hloop, Option.map_some', if_neg (by simp)]

theorem C10_witness :
    raisePage2World.fetchJson (wpPageUrl baseH 2) = .raise ∧
    raisePage2World.fetchJson (wpPageUrl baseH 1) =
      .list [⟨some (bs "T"), some (bs "http://h/x"), none, none⟩] ∧
    try_fetch_all_posts_via_wpapi raisePage2World baseH 3 = some [] ∧
    discover_all_post_urls raisePage2World baseH 3 =
      some (discoverStage23 raisePage2World baseH) :=
  ⟨by decide, by decide,
   (C10_stage1_all_or_nothing raisePage2World baseH 2 3 (by omega) (by omega)
     (fun p hp1 hp2 => by
       have hp : p = 1 := by omega
       subst hp
       exact ⟨⟨some (bs "T"), some (bs "http://h/x"), none, none⟩, [], by decide⟩)
     (by decide)).1,
   (C10_stage1_all_or_nothing raisePage2World baseH 2 3 (by omega) (by omega)
     (fun p hp1 hp2 => by
       have hp : p = 1 := by omega
       subst hp
       exact ⟨⟨some (bs "T"), some (bs "http://h/x"), none, none⟩, [], by decide⟩)
     (by decide)).2⟩

/-- Claim C4 (amended): post-classification is deterministic and insensitive
to the case-folding it itself performs — classifying the lower-cased URL
gives the same verdict — but it does not commute with `normalize_url`. -/
theorem C4_classification_case_stable :
    ∀ u : BStr, is_post_url (pyLower u) = is_post_url u := by
  intro u
  unfold is_post_url
  rw [pyLower_idem]

/-- Claim C4, counterexample: `/2024/05` is classified as a non-post before
normalization (the date pattern requires a trailing slash) and as a post
after normalization appends the slash — classification does not commute with
normalization. -/
theorem C4_counterexample :
    is_post_url (bs "http://a/2024/05") = false ∧
    is_post_url (normalize_url (bs "http://a/2024/05")) = true := by
  decide

/-! ## Generic splitting lemmas -/

theorem splitFirst_of_not_mem {sep : Byte} : ∀ {s : BStr}, sep ∉ s → splitFirst sep s = none := by
  intro s
  induction s with
  | nil => intro _; rfl
  | cons c rest ih =>
    intro h
    simp only [splitFirst]
    rw [if_neg (fun he => h (by rw [← he]; exact List.mem_cons_self c rest)), ih (fun hm => h (List.mem_cons_of_mem c hm))]
    rfl

theorem splitFirst_eq_some {sep : Byte} :
    ∀ {s a b : BStr}, splitFirst sep s = some (a, b) → s = a ++ sep :: b ∧ sep ∉ a := by
  intro s
  induction s with
  | nil => intro a b h; simp [splitFirst] at h
  | cons c rest ih =>
    intro a b h
    simp only [splitFirst] at h
    split at h
    · rename_i hc
      simp only [Option.some.injEq, Prod.mk.injEq] at h
      rcases h with ⟨rfl, rfl⟩
      exact ⟨by rw [hc]; rfl, List.not_mem_nil _⟩
    · rename_i hc
      rcases Option.map_eq_some'.mp h with ⟨p, hp, hfp⟩
      simp only [Prod.mk.injEq] at hfp
      rcases hfp with ⟨rfl, rfl⟩
      rcases ih hp with ⟨hr, hnm⟩
      refine ⟨by rw [hr]; rfl, ?_⟩
      intro hmem
      rcases List.mem_cons.mp hmem with he | hm
      · exact hc he.symm
      · exact hnm hm

theorem splitFirst_append {sep : Byte} :
    ∀ {a : BStr}, sep ∉ a → ∀ b, splitFirst sep (a ++ sep :: b) = some (a, b) := by
  intro a
  induction a with
  | nil => intro _ b; simp [splitFirst]
  | cons c cs ih =>
    intro h b
    simp only [List.cons_append, splitFirst]
    rw [if_neg (fun hc => h (by rw [← hc]; exact List.mem_cons_self c cs))]
    simp only [List.append_eq]
    rw [ih (fun hm => h (List.mem_cons_of_mem _ hm)) b]
    rfl

theorem splitFirst_append_left {sep : Byte} {xs a b : BStr}
    (h : splitFirst sep xs = some (a, b)) (ys : BStr) :
    splitFirst sep (xs ++ ys) = some (a, b ++ ys) := by
  rcases splitFirst_eq_some h with ⟨hxs, hna⟩
  rw [hxs, List.append_assoc]
  exact splitFirst_append hna (b ++ ys)

theorem splitFirst_append_right {sep : Byte} :
    ∀ {xs : BStr}, sep ∉ xs → ∀ ys,
      splitFirst sep (xs ++ ys) = (splitFirst sep ys).map (fun p => (xs ++ p.1, p.2)) := by
  intro xs
  induction xs with
  | nil =>
    intro _ ys
    simp only [List.nil_append]
    cases splitFirst sep ys with
    | none => rfl
    | some p => rfl
  | cons c cs ih =>
    intro h ys
    simp only [List.cons_append, splitFirst]
    rw [if_neg (fun hc => h (by rw [← hc]; exact List.mem_cons_self c cs))]
    simp only [List.append_eq]
    rw [ih (fun hm => h (List.mem_cons_of_mem _ hm)) ys, Option.map_map]
    rfl

theorem splitLast_eq_none {sep : Byte} : ∀ {s : BStr}, splitLast sep s = none → sep ∉ s := by
  intro s
  induction s with
  | nil => intro _; exact List.not_mem_nil _
  | cons c rest ih =>
    intro h
    simp only [splitLast] at h
    intro hmem
    cases hr : splitLast sep rest with
    | some p => rw [hr] at h; exact Option.noConfusion h
    | none =>
      rw [hr] at h
      rcases List.mem_cons.mp hmem with rfl | hm
      · rw [if_pos rfl] at h; exact Option.noConfusion h
      · exact ih hr hm

theorem splitLast_of_not_mem {sep : Byte} : ∀ {s : BStr}, sep ∉ s → splitLast sep s = none := by
  intro s
  induction s with
  | nil => intro _; rfl
  | cons c rest ih =>
    intro h
    simp only [splitLast]
    rw [ih (fun hm => h (List.mem_cons_of_mem _ hm))]
    rw [if_neg (fun hc => h (by rw [← hc]; exact List.mem_cons_self c rest))]

theorem splitLast_eq_some {sep : Byte} :
    ∀ {s a b : BStr}, splitLast sep s = some (a, b) → s = a ++ sep :: b ∧ sep ∉ b := by
  intro s
  induction s with
  | nil => intro a b h; simp [splitLast] at h
  | cons c rest ih =>
    intro a b h
    cases hr : splitLast sep rest with
    | some p =>
      simp only [splitLast, hr, Option.some.injEq, Prod.mk.injEq] at h
      rcases h with ⟨rfl, rfl⟩
      rcases ih hr with ⟨hrs, hnm⟩
      exact ⟨by rw [hrs]; rfl, hnm⟩
    | none =>
      simp only [splitLast, hr] at h
      split at h
      · rename_i hc
        simp only [Option.some.injEq, Prod.mk.injEq] at h
        rcases h with ⟨rfl, rfl⟩
        exact ⟨by rw [hc]; rfl, splitLast_eq_none hr⟩
      · exact Option.noConfusion h

theorem splitLast_append {sep : Byte} {b : BStr} (h : sep ∉ b) :
    ∀ a, splitLast sep (a ++ sep :: b) = some (a, b) := by
  intro a
  induction a with
  | nil =>
    simp [splitLast, splitLast_of_not_mem h]
  | cons c cs ih =>
    simp [splitLast, ih]

/-! ## takeWhile/dropWhile lemmas -/

theorem takeWhile_append_all {p : Byte → Bool} :
    ∀ {xs : BStr}, (∀ x ∈ xs, p x = true) → ∀ ys,
      (xs ++ ys).takeWhile p = xs ++ ys.takeWhile p := by
  intro xs
  induction xs with
  | nil => intro _ ys; rfl
  | cons c cs ih =>
    intro h ys
    simp only [List.cons_append, List.takeWhile_cons, h c (List.mem_cons_self c cs)]
    rw [ih (fun x hx => h x (List.mem_cons_of_mem _ hx)) ys]
    simp

theorem dropWhile_append_all {p : Byte → Bool} :
    ∀ {xs : BStr}, (∀ x ∈ xs, p x = true) → ∀ ys,
      (xs ++ ys).dropWhile p = ys.dropWhile p := by
  intro xs
  induction xs with
  | nil => intro _ ys; rfl
  | cons c cs ih =>
    intro h ys
    simp only [List.cons_append, List.dropWhile_cons, h c (List.mem_cons_self c cs)]
    exact ih (fun x hx => h x (List.mem_cons_of_mem _ hx)) ys

theorem takeWhile_head_false {p : Byte → Bool} {y : Byte} {ys : BStr} (hy : p y = false) :
    (y :: ys).takeWhile p = [] := by
  simp [List.takeWhile_cons, hy]

theorem dropWhile_head_false {p : Byte → Bool} {y : Byte} {ys : BStr} (hy : p y = false) :
    (y :: ys).dropWhile p = y :: ys := by
  simp [List.dropWhile_cons, hy]

theorem dropWhile_append_exists (p : Byte → Bool) :
    ∀ (xs ys : BStr), (ys = [] ∨ ∃ d ys', ys = d :: ys' ∧ p d = false) →
      ∃ zs, (xs ++ ys).dropWhile p = zs ++ ys ∧ ∀ x ∈ zs, x ∈ xs := by
  intro xs
  induction xs with
  | nil =>
    intro ys hys
    refine ⟨[], ?_, by intro x hx; exact absurd hx (List.not_mem_nil x)⟩
    rcases hys with rfl | ⟨d, ys', rfl, hd⟩
    · rfl
    · exact dropWhile_head_false hd
  | cons c cs ih =>
    intro ys hys
    simp only [List.cons_append, List.dropWhile_cons]
    cases hc : p c with
    | true =>
      rcases ih ys hys with ⟨zs, hz, hmem⟩
      exact ⟨zs, by simp [hz], fun x hx => List.mem_cons_of_mem _ (hmem x hx)⟩
    | false =>
      exact ⟨c :: cs, by simp, fun x hx => hx⟩

/-! ## take lemmas -/

theorem take_one_append {xs : BStr} (h : xs ≠ []) (ys : BStr) :
    (xs ++ ys).take 1 = xs.take 1 := by
  cases xs with
  | nil => exact absurd rfl h
  | cons c cs => simp

theorem take_two_append {x y : Byte} {xs : BStr} (ys : BStr) :
    ((x :: y :: xs) ++ ys).take 2 = [x, y] := by
  simp

/-! ## Byte-class facts (decided by enumeration over `Fin 256`) -/

theorem safeByte_facts : ∀ c : Byte, alwaysSafeB c = true →
    c ≠ (43 : Byte) ∧ c ≠ (37 : Byte) ∧ c ≠ (32 : Byte) ∧ c ≠ (38 : Byte) ∧
    c ≠ (61 : Byte) ∧ c ≠ (35 : Byte) ∧ c ≠ (63 : Byte) ∧ c ≠ (58 : Byte) ∧
    c ≠ (59 : Byte) ∧ c ≠ (47 : Byte) ∧ cleanByte c = true := by
  decide

theorem byte_hex_roundtrip : ∀ c : Byte,
    hexVal (hexHi c) = some (hexHiF c) ∧ hexVal (hexLo c) = some (hexLoF c) ∧
    mkByte (hexHiF c) (hexLoF c) = c := by
  decide

theorem hexChar_facts : ∀ c : Byte,
    hexHi c ≠ (43 : Byte) ∧ hexLo c ≠ (43 : Byte) ∧ hexHi c ≠ (38 : Byte) ∧
    hexLo c ≠ (38 : Byte) ∧ hexHi c ≠ (61 : Byte) ∧ hexLo c ≠ (61 : Byte) ∧
    hexHi c ≠ (35 : Byte) ∧ hexLo c ≠ (35 : Byte) ∧ cleanByte (hexHi c) = true ∧
    cleanByte (hexLo c) = true := by
  decide

theorem quotePlusByte_cases (c : Byte) :
    (alwaysSafeB c = true ∧ quotePlusByte c = [c]) ∨
    (c = (32 : Byte) ∧ quotePlusByte c = [(43 : Byte)]) ∨
    (alwaysSafeB c = false ∧ c ≠ (32 : Byte) ∧
      quotePlusByte c = [(37 : Byte), hexHi c, hexLo c]) := by
  unfold quotePlusByte
  by_cases h1 : alwaysSafeB c = true
  · exact Or.inl ⟨h1, by rw [if_pos h1]⟩
  · by_cases h2 : c = (32 : Byte)
    · refine Or.inr (Or.inl ⟨h2, ?_⟩)
      rw [if_neg h1, if_pos h2]
    · refine Or.inr (Or.inr ⟨Bool.eq_false_iff.mpr h1, h2, ?_⟩)
      rw [if_neg h1, if_neg h2]

theorem mem_quotePlusByte_ok {c x : Byte} (h : x ∈ quotePlusByte c) :
    x ≠ (38 : Byte) ∧ x ≠ (61 : Byte) ∧ x ≠ (35 : Byte) ∧ cleanByte x = true := by
  rcases quotePlusByte_cases c with ⟨hs, he⟩ | ⟨hs, he⟩ | ⟨_, _, he⟩ <;> rw [he] at h
  · rcases List.mem_singleton.mp h with rfl
    rcases safeByte_facts x hs with ⟨_, _, _, h38, h61, h35, _, _, _, _, hcl⟩
    exact ⟨h38, h61, h35, hcl⟩
  · rcases List.mem_singleton.mp h with rfl
    exact ⟨by decide, by decide, by decide, by decide⟩
  · rcases List.mem_cons.mp h with rfl | h'
    · exact ⟨by decide, by decide, by decide, by decide⟩
    · rcases List.mem_cons.mp h' with rfl | h''
      · rcases hexChar_facts c with ⟨_, _, h38, _, h61, _, h35, _, hcl, _⟩
        exact ⟨h38, h61, h35, hcl⟩
      · rcases List.mem_singleton.mp h'' with rfl
        rcases hexChar_facts c with ⟨_, _, _, h38, _, h61, _, h35, _, hcl⟩
        exact ⟨h38, h61, h35, hcl⟩

theorem mem_quotePlus_ok {x : Byte} {s : BStr} (h : x ∈ pyQuotePlus s) :
    x ≠ (38 : Byte) ∧ x ≠ (61 : Byte) ∧ x ≠ (35 : Byte) ∧ cleanByte x = true := by
  rcases List.mem_flatMap.mp h with ⟨c, _, hc⟩
  exact mem_quotePlusByte_ok hc

theorem mem_joinSep {sep x : Byte} :
    ∀ {parts : List BStr}, x ∈ joinSep sep parts → x = sep ∨ ∃ p ∈ parts, x ∈ p := by
  intro parts
  induction parts with
  | nil => intro h; exact absurd h (List.not_mem_nil x)
  | cons a rest ih =>
    intro h
    cases rest with
    | nil =>
      exact Or.inr ⟨a, List.mem_cons_self a [], h⟩
    | cons b t =>
      simp only [joinSep] at h
      rcases List.mem_append.mp h with ha | hrest
      · exact Or.inr ⟨a, List.mem_cons_self _ _, ha⟩
      · rcases List.mem_cons.mp hrest with rfl | h'
        · exact Or.inl rfl
        · rcases ih h' with hsep | ⟨p, hp, hxp⟩
          · exact Or.inl hsep
          · exact Or.inr ⟨p, List.mem_cons_of_mem _ hp, hxp⟩

theorem mem_urlencode_ok {x : Byte} {l : List (BStr × BStr)} (h : x ∈ pyUrlencode l) :
    x ≠ (35 : Byte) ∧ cleanByte x = true := by
  rcases mem_joinSep h with rfl | ⟨p, hp, hxp⟩
  · exact ⟨by decide, by decide⟩
  · rcases List.mem_map.mp hp with ⟨kv, _, rfl⟩
    rcases List.mem_append.mp hxp with hk | hv
    · rcases mem_quotePlus_ok hk with ⟨_, _, h35, hcl⟩
      exact ⟨h35, hcl⟩
    · rcases List.mem_cons.mp hv with rfl | hv'
      · exact ⟨by decide, by decide⟩
      · rcases mem_quotePlus_ok hv' with ⟨_, _, h35, hcl⟩
        exact ⟨h35, hcl⟩

/-! ## `unquote ∘ replace ∘ quote` round trip -/

theorem pyUnquote_cons_not37 {c : Byte} (hc : c ≠ (37 : Byte)) (t : BStr) :
    pyUnquote (c :: t) = c :: pyUnquote t := by
  cases t with
  | nil => rfl
  | cons a t' =>
    cases t' with
    | nil => rfl
    | cons b r =>
      simp only [pyUnquote]
      rw [if_neg hc]

theorem pyUnquote_escape (c : Byte) (t : BStr) :
    pyUnquote ((37 : Byte) :: hexHi c :: hexLo c :: t) = c :: pyUnquote t := by
  have h := byte_hex_roundtrip c
  simp only [pyUnquote, if_pos rfl, h.1, h.2.1, h.2.2]
  simp

theorem replacePlus_append (a b : BStr) :
    replacePlus (a ++ b) = replacePlus a ++ replacePlus b :=
  List.map_append _ a b

theorem unquote_replacePlus_quotePlus : ∀ (s t : BStr),
    pyUnquote (replacePlus (pyQuotePlus s) ++ t) = s ++ pyUnquote t := by
  intro s
  induction s with
  | nil => intro t; simp [pyQuotePlus, replacePlus]
  | cons c cs ih =>
    intro t
    have hq : pyQuotePlus (c :: cs) = quotePlusByte c ++ pyQuotePlus cs := rfl
    rw [hq, replacePlus_append, List.append_assoc]
    rcases quotePlusByte_cases c with ⟨hs, he⟩ | ⟨hs, he⟩ | ⟨hs, hs2, he⟩
    · rw [he]
      have hne43 := (safeByte_facts c hs).1
      have hne37 := (safeByte_facts c hs).2.1
      have hrp : replacePlus [c] = [c] := by
        simp [replacePlus, hne43]
      rw [hrp]
      simp only [List.cons_append, List.nil_append]
      rw [pyUnquote_cons_not37 hne37, ih t]
    · subst hs
      rw [he]
      have hrp : replacePlus [(43 : Byte)] = [(32 : Byte)] := by decide
      rw [hrp]
      simp only [List.cons_append, List.nil_append]
      rw [pyUnquote_cons_not37 (by decide), ih t]
    · rw [he]
      have hf := hexChar_facts c
      have hrp : replacePlus [(37 : Byte), hexHi c, hexLo c] =
          [(37 : Byte), hexHi c, hexLo c] := by
        simp [replacePlus, hf.1, hf.2.1]
      rw [hrp]
      simp only [List.cons_append, List.nil_append]
      rw [pyUnquote_escape c, ih t]

theorem pyUnquote_quotePlus (s : BStr) : pyUnquote (replacePlus (pyQuotePlus s)) = s := by
  have h := unquote_replacePlus_quotePlus s []
  rw [List.append_nil] at h
  simpa [pyUnquote] using h

/-! ## `parse_qsl ∘ urlencode` round trip -/

theorem pySplitAll_ne_nil (sep : Byte) : ∀ s : BStr, pySplitAll sep s ≠ [] := by
  intro s
  cases s with
  | nil => simp [pySplitAll]
  | cons c rest =>
    simp only [pySplitAll]
    split
    · simp
    · split <;> simp

theorem pySplitAll_single {sep : Byte} : ∀ {x : BStr}, sep ∉ x → pySplitAll sep x = [x] := by
  intro x
  induction x with
  | nil => intro _; rfl
  | cons c cs ih =>
    intro h
    simp only [pySplitAll]
    rw [ih (fun hm => h (List.mem_cons_of_mem _ hm))]
    show (if c = sep then [] :: cs :: ([] : List BStr) else (c :: cs) :: []) = [c :: cs]
    rw [if_neg (fun hc => h (by rw [← hc]; exact List.mem_cons_self c cs))]

theorem pySplitAll_append {sep : Byte} : ∀ {x : BStr}, sep ∉ x → ∀ r,
    pySplitAll sep (x ++ sep :: r) = x :: pySplitAll sep r := by
  intro x
  induction x with
  | nil =>
    intro _ r
    simp only [List.nil_append, pySplitAll]
    cases h : pySplitAll sep r with
    | nil => exact absurd h (pySplitAll_ne_nil sep r)
    | cons a t =>
      simp
  | cons c cs ih =>
    intro h r
    simp only [List.cons_append, pySplitAll]
    simp only [List.append_eq]
    rw [ih (fun hm => h (List.mem_cons_of_mem _ hm)) r]
    show (if c = sep then [] :: cs :: pySplitAll sep r else (c :: cs) :: pySplitAll sep r) =
      (c :: cs) :: pySplitAll sep r
    rw [if_neg (fun hc => h (by rw [← hc]; exact List.mem_cons_self c cs))]

theorem chunk_no_38 (k v : BStr) :
    (38 : Byte) ∉ pyQuotePlus k ++ (61 : Byte) :: pyQuotePlus v := by
  intro h
  rcases List.mem_append.mp h with hk | hv
  · exact (mem_quotePlus_ok hk).1 rfl
  · rcases List.mem_cons.mp hv with he | hv'
    · exact absurd he (by decide)
    · exact (mem_quotePlus_ok hv').1 rfl

theorem chunk_ne_nil (k v : BStr) :
    pyQuotePlus k ++ (61 : Byte) :: pyQuotePlus v ≠ [] := by
  intro h
  rcases List.append_eq_nil.mp h with ⟨_, h2⟩
  exact List.noConfusion h2

theorem pyParseQsl_chunk_cons (k v : BStr) (r : BStr) :
    pyParseQsl ((pyQuotePlus k ++ (61 : Byte) :: pyQuotePlus v) ++ (38 : Byte) :: r) =
      (k, v) :: pyParseQsl r := by
  unfold pyParseQsl
  rw [pySplitAll_append (chunk_no_38 k v) r]
  simp only [List.filterMap_cons]
  rw [if_neg (chunk_ne_nil k v)]
  rw [splitFirst_append (fun hm => (mem_quotePlus_ok hm).2.1 rfl) (pyQuotePlus v)]
  simp only [pyUnquote_quotePlus]

theorem pyParseQsl_chunk_single (k v : BStr) :
    pyParseQsl (pyQuotePlus k ++ (61 : Byte) :: pyQuotePlus v) = [(k, v)] := by
  unfold pyParseQsl
  rw [pySplitAll_single (chunk_no_38 k v)]
  simp only [List.filterMap_cons, List.filterMap_nil]
  rw [if_neg (chunk_ne_nil k v)]
  rw [splitFirst_append (fun hm => (mem_quotePlus_ok hm).2.1 rfl) (pyQuotePlus v)]
  simp only [pyUnquote_quotePlus]

theorem pyParseQsl_urlencode : ∀ l : List (BStr × BStr), pyParseQsl (pyUrlencode l) = l := by
  intro l
  induction l with
  | nil => rfl
  | cons kv rest ih =>
    cases rest with
    | nil =>
      show pyParseQsl (joinSep 38 [pyQuotePlus kv.1 ++ (61 : Byte) :: pyQuotePlus kv.2]) = _
      simp only [joinSep]
      rw [pyParseQsl_chunk_single kv.1 kv.2]
    | cons kv2 rest2 =>
      show pyParseQsl (joinSep 38
        ((pyQuotePlus kv.1 ++ (61 : Byte) :: pyQuotePlus kv.2) ::
          (pyQuotePlus kv2.1 ++ (61 : Byte) :: pyQuotePlus kv2.2) ::
          (rest2.map (fun p => pyQuotePlus p.1 ++ (61 : Byte) :: pyQuotePlus p.2)))) = _
      simp only [joinSep]
      rw [pyParseQsl_chunk_cons kv.1 kv.2]
      rw [show ((pyQuotePlus kv2.1 ++ (61 : Byte) :: pyQuotePlus kv2.2) ::
          (rest2.map (fun p => pyQuotePlus p.1 ++ (61 : Byte) :: pyQuotePlus p.2))) =
          ((kv2 :: rest2).map (fun p => pyQuotePlus p.1 ++ (61 : Byte) :: pyQuotePlus p.2))
        from rfl]
      rw [show joinSep 38 ((kv2 :: rest2).map
          (fun p => pyQuotePlus p.1 ++ (61 : Byte) :: pyQuotePlus p.2)) =
          pyUrlencode (kv2 :: rest2) from rfl]
      rw [ih]

/-! ## `urlsplit` analysis: small helpers -/

theorem splitFirst_none_not_mem {sep : Byte} : ∀ {s : BStr}, splitFirst sep s = none → sep ∉ s := by
  intro s
  induction s with
  | nil => intro _; exact List.not_mem_nil _
  | cons c rest ih =>
    intro h hmem
    simp only [splitFirst] at h
    split at h
    · exact Option.noConfusion h
    · rename_i hc
      rcases List.mem_cons.mp hmem with he | hm
      · exact hc he.symm
      · exact ih (Option.map_eq_none'.mp h) hm

theorem dropWhile_head_cases (p : Byte → Bool) : ∀ s : BStr,
    s.dropWhile p = [] ∨ ∃ c cs, s.dropWhile p = c :: cs ∧ p c = false := by
  intro s
  induction s with
  | nil => left; rfl
  | cons a rest ih =>
    rw [List.dropWhile_cons]
    by_cases h : p a = true
    · rw [if_pos h]
      exact ih
    · rw [if_neg h]
      exact Or.inr ⟨a, rest, rfl, Bool.eq_false_iff.mpr h⟩

theorem removeUnsafe_clean {s : BStr} : ∀ x ∈ removeUnsafe s, cleanByte x = true := by
  intro x hx
  exact (List.mem_filter.mp hx).2

theorem removeUnsafe_sub {s : BStr} : ∀ x ∈ removeUnsafe s, x ∈ s :=
  fun _ hx => (List.mem_filter.mp hx).1

theorem gt32_clean : ∀ c : Byte, 32 < c.val → cleanByte c = true := by decide

theorem url1_head (u : BStr) :
    removeUnsafe (lstripC0 u) = [] ∨
    ∃ c cs, removeUnsafe (lstripC0 u) = c :: cs ∧ 32 < c.val := by
  rcases dropWhile_head_cases (fun c => decide (c.val ≤ 32)) u with h | ⟨c, cs, h, hc⟩
  · left
    unfold lstripC0
    rw [h]
    rfl
  · have hgt : 32 < c.val := by
      simp only [decide_eq_false_iff_not] at hc
      omega
    right
    refine ⟨c, removeUnsafe cs, ?_, hgt⟩
    unfold lstripC0
    rw [h]
    unfold removeUnsafe
    have hcl : (!(decide (c = (9 : Byte)) || decide (c = (10 : Byte)) ||
        decide (c = (13 : Byte)))) = true := gt32_clean c hgt
    rw [List.filter_cons, if_pos hcl]

theorem netlocDelim_cases : ∀ d : Byte, netlocDelim d = true →
    d = (47 : Byte) ∨ d = (63 : Byte) ∨ d = (35 : Byte) := by
  decide

theorem splitNetloc_take {s : BStr} : ∀ x ∈ (splitNetloc s).1, netlocDelim x = false ∧ x ∈ s := by
  intro x hx
  unfold splitNetloc at hx
  refine ⟨?_, (List.takeWhile_sublist _).subset hx⟩
  have := List.mem_takeWhile_imp hx
  simpa using this

theorem splitNetloc_drop_head (s : BStr) :
    (splitNetloc s).2 = [] ∨ ∃ c cs, (splitNetloc s).2 = c :: cs ∧ netlocDelim c = true := by
  unfold splitNetloc
  rcases dropWhile_head_cases (fun c => !netlocDelim c) s with h | ⟨c, cs, h, hc⟩
  · left; exact h
  · right
    refine ⟨c, cs, h, ?_⟩
    simpa using hc

theorem splitNetloc_drop_sub {s : BStr} : ∀ x ∈ (splitNetloc s).2, x ∈ s := by
  intro x hx
  unfold splitNetloc at hx
  exact (List.dropWhile_sublist _).subset hx

/-! ## scheme-detection helpers -/

theorem schemeChar_facts : ∀ c : Byte, isSchemeChar c = true →
    c ≠ (58 : Byte) ∧ cleanByte c = true ∧ 32 < c.val ∧ c ≠ (47 : Byte) ∧
    c ≠ (63 : Byte) ∧ c ≠ (35 : Byte) := by
  decide

theorem lowerByte_alpha : ∀ c : Byte, isAlphaB c = true → isAlphaB (pyLowerByte c) = true := by
  decide

theorem lowerByte_schemeChar : ∀ c : Byte, isSchemeChar c = true →
    isSchemeChar (pyLowerByte c) = true := by
  decide

theorem goodSchemePre_spec {p : BStr} (h : goodSchemePre p = true) :
    ∃ c cs, p = c :: cs ∧ isAlphaB c = true ∧ ∀ x ∈ c :: cs, isSchemeChar x = true := by
  cases p with
  | nil => exact absurd h (by simp [goodSchemePre])
  | cons c cs =>
    simp only [goodSchemePre, Bool.and_eq_true, List.all_eq_true] at h
    exact ⟨c, cs, rfl, h.1, h.2⟩

theorem goodSchemePre_no58 {p : BStr} (h : goodSchemePre p = true) : (58 : Byte) ∉ p := by
  rcases goodSchemePre_spec h with ⟨c, cs, rfl, _, hall⟩
  intro hmem
  exact (schemeChar_facts _ (hall _ hmem)).1 rfl

theorem goodSchemePre_clean {p : BStr} (h : goodSchemePre p = true) :
    ∀ x ∈ p, cleanByte x = true := by
  rcases goodSchemePre_spec h with ⟨c, cs, rfl, _, hall⟩
  intro x hx
  exact (schemeChar_facts _ (hall _ hx)).2.1

theorem goodSchemePre_lower {p : BStr} (h : goodSchemePre p = true) :
    goodSchemePre (pyLower p) = true := by
  rcases goodSchemePre_spec h with ⟨c, cs, rfl, ha, hall⟩
  show goodSchemePre (pyLowerByte c :: List.map pyLowerByte cs) = true
  simp only [goodSchemePre, Bool.and_eq_true, List.all_eq_true]
  refine ⟨lowerByte_alpha c ha, ?_⟩
  intro x hx
  rcases List.mem_cons.mp hx with rfl | hx'
  · exact lowerByte_schemeChar c (hall c (List.mem_cons_self _ _))
  · rcases List.mem_map.mp hx' with ⟨y, hy, rfl⟩
    exact lowerByte_schemeChar y (hall y (List.mem_cons_of_mem _ hy))

theorem splitScheme_cases (s : BStr) :
    (splitScheme s = ([], s) ∧
      ∀ pre post, splitFirst 58 s = some (pre, post) → goodSchemePre pre = false) ∨
    (∃ pre post, splitFirst (58 : Byte) s = some (pre, post) ∧ goodSchemePre pre = true ∧
      splitScheme s = (pyLower pre, post)) := by
  cases h : splitFirst (58 : Byte) s with
  | none =>
    left
    constructor
    · unfold splitScheme
      rw [h]
    · intro pre post h'
      exact Option.noConfusion h'
  | some p =>
    obtain ⟨a, b⟩ := p
    by_cases hg : goodSchemePre a = true
    · right
      refine ⟨a, b, rfl, hg, ?_⟩
      unfold splitScheme
      simp only [h]
      rw [if_pos hg]
    · left
      constructor
      · unfold splitScheme
        simp only [h]
        rw [if_neg hg]
      · intro pre post h'
        simp only [Option.some.injEq, Prod.mk.injEq] at h'
        rw [← h'.1]
        exact Bool.eq_false_iff.mpr hg

theorem splitScheme_of_append {scheme rest : BStr} (hg : goodSchemePre scheme = true) :
    splitScheme (scheme ++ (58 : Byte) :: rest) = (pyLower scheme, rest) := by
  unfold splitScheme
  rw [splitFirst_append (goodSchemePre_no58 hg) rest]
  show (if goodSchemePre scheme = true then (pyLower scheme, rest)
    else ([], scheme ++ (58 : Byte) :: rest)) = (pyLower scheme, rest)
  rw [if_pos hg]

theorem splitScheme_head_bad {s : BStr}
    (h : ∀ x, s.take 1 = [x] → isAlphaB x = false) : splitScheme s = ([], s) := by
  unfold splitScheme
  cases hf : splitFirst (58 : Byte) s with
  | none => rfl
  | some p =>
    obtain ⟨a, b⟩ := p
    rcases splitFirst_eq_some hf with ⟨hs, hna⟩
    cases a with
    | nil =>
      show (if goodSchemePre ([] : BStr) = true then (pyLower [], b) else ([], s)) = ([], s)
      rw [if_neg (by simp [goodSchemePre])]
    | cons c cs =>
      have hc : s.take 1 = [c] := by rw [hs]; rfl
      show (if goodSchemePre (c :: cs) = true then (pyLower (c :: cs), b) else ([], s)) = ([], s)
      rw [if_neg]
      simp only [goodSchemePre, Bool.and_eq_true, List.all_eq_true]
      intro hcon
      rw [h c hc] at hcon
      exact Bool.noConfusion hcon.1

/-! ## `splitFragQuery` analysis -/

theorem sfq_some_some {rest1 a b c d : BStr} (h35 : splitFirst (35 : Byte) rest1 = some (a, b))
    (h63 : splitFirst (63 : Byte) a = some (c, d)) :
    splitFragQuery rest1 = (c, d, b) := by
  simp only [splitFragQuery, h35, h63]

theorem sfq_some_none {rest1 a b : BStr} (h35 : splitFirst (35 : Byte) rest1 = some (a, b))
    (h63 : splitFirst (63 : Byte) a = none) :
    splitFragQuery rest1 = (a, [], b) := by
  simp only [splitFragQuery, h35, h63]

theorem sfq_none_some {rest1 c d : BStr} (h35 : splitFirst (35 : Byte) rest1 = none)
    (h63 : splitFirst (63 : Byte) rest1 = some (c, d)) :
    splitFragQuery rest1 = (c, d, []) := by
  simp only [splitFragQuery, h35, h63]

theorem sfq_none_none {rest1 : BStr} (h35 : splitFirst (35 : Byte) rest1 = none)
    (h63 : splitFirst (63 : Byte) rest1 = none) :
    splitFragQuery rest1 = (rest1, [], []) := by
  simp only [splitFragQuery, h35, h63]

theorem sfq_path_prefix (rest1 : BStr) : ∃ t, (splitFragQuery rest1).1 ++ t = rest1 := by
  cases h35 : splitFirst (35 : Byte) rest1 with
  | none =>
    cases h63 : splitFirst (63 : Byte) rest1 with
    | none =>
      rw [sfq_none_none h35 h63]
      exact ⟨[], List.append_nil _⟩
    | some p =>
      obtain ⟨c, d⟩ := p
      rw [sfq_none_some h35 h63]
      exact ⟨(63 : Byte) :: d, (splitFirst_eq_some h63).1.symm⟩
  | some p =>
    obtain ⟨a, b⟩ := p
    cases h63 : splitFirst (63 : Byte) a with
    | none =>
      rw [sfq_some_none h35 h63]
      exact ⟨(35 : Byte) :: b, (splitFirst_eq_some h35).1.symm⟩
    | some q =>
      obtain ⟨c, d⟩ := q
      rw [sfq_some_some h35 h63]
      refine ⟨(63 : Byte) :: d ++ (35 : Byte) :: b, ?_⟩
      have h1 := (splitFirst_eq_some h35).1
      have h2 := (splitFirst_eq_some h63).1
      rw [h1, h2]
      simp

theorem sfq_path_63_35 (rest1 : BStr) :
    ∀ x ∈ (splitFragQuery rest1).1, x ≠ (63 : Byte) ∧ x ≠ (35 : Byte) := by
  intro x hx
  cases h35 : splitFirst (35 : Byte) rest1 with
  | none =>
    have hn35 : (35 : Byte) ∉ rest1 := splitFirst_none_not_mem h35
    cases h63 : splitFirst (63 : Byte) rest1 with
    | none =>
      rw [sfq_none_none h35 h63] at hx
      exact ⟨fun he => splitFirst_none_not_mem h63 (he ▸ hx), fun he => hn35 (he ▸ hx)⟩
    | some p =>
      obtain ⟨c, d⟩ := p
      rw [sfq_none_some h35 h63] at hx
      rcases splitFirst_eq_some h63 with ⟨hr, hnc⟩
      refine ⟨fun he => hnc (he ▸ hx), fun he => hn35 ?_⟩
      rw [hr]
      exact List.mem_append.mpr (Or.inl (he ▸ hx))
  | some p =>
    obtain ⟨a, b⟩ := p
    rcases splitFirst_eq_some h35 with ⟨hr, hna⟩
    cases h63 : splitFirst (63 : Byte) a with
    | none =>
      rw [sfq_some_none h35 h63] at hx
      exact ⟨fun he => splitFirst_none_not_mem h63 (he ▸ hx), fun he => hna (he ▸ hx)⟩
    | some q =>
      obtain ⟨c, d⟩ := q
      rw [sfq_some_some h35 h63] at hx
      rcases splitFirst_eq_some h63 with ⟨ha, hnc⟩
      refine ⟨fun he => hnc (he ▸ hx), fun he => hna ?_⟩
      rw [ha]
      exact List.mem_append.mpr (Or.inl (he ▸ hx))

theorem sfq_query_35_sub (rest1 : BStr) :
    ∀ x ∈ (splitFragQuery rest1).2.1, x ≠ (35 : Byte) ∧ x ∈ rest1 := by
  intro x hx
  cases h35 : splitFirst (35 : Byte) rest1 with
  | none =>
    have hn35 : (35 : Byte) ∉ rest1 := splitFirst_none_not_mem h35
    cases h63 : splitFirst (63 : Byte) rest1 with
    | none =>
      rw [sfq_none_none h35 h63] at hx
      exact absurd hx (List.not_mem_nil x)
    | some p =>
      obtain ⟨c, d⟩ := p
      rw [sfq_none_some h35 h63] at hx
      rcases splitFirst_eq_some h63 with ⟨hr, _⟩
      have hmem : x ∈ rest1 := by
        rw [hr]
        exact List.mem_append.mpr (Or.inr (List.mem_cons_of_mem _ hx))
      exact ⟨fun he => hn35 (he ▸ hmem), hmem⟩
  | some p =>
    obtain ⟨a, b⟩ := p
    rcases splitFirst_eq_some h35 with ⟨hr, hna⟩
    cases h63 : splitFirst (63 : Byte) a with
    | none =>
      rw [sfq_some_none h35 h63] at hx
      exact absurd hx (List.not_mem_nil x)
    | some q =>
      obtain ⟨c, d⟩ := q
      rw [sfq_some_some h35 h63] at hx
      rcases splitFirst_eq_some h63 with ⟨ha, _⟩
      have hmema : x ∈ a := by
        rw [ha]
        exact List.mem_append.mpr (Or.inr (List.mem_cons_of_mem _ hx))
      have hmem : x ∈ rest1 := by
        rw [hr]
        exact List.mem_append.mpr (Or.inl hmema)
      exact ⟨fun he => hna (he ▸ hmema), hmem⟩

theorem sfq_frag_sub (rest1 : BStr) : ∀ x ∈ (splitFragQuery rest1).2.2, x ∈ rest1 := by
  intro x hx
  cases h35 : splitFirst (35 : Byte) rest1 with
  | none =>
    cases h63 : splitFirst (63 : Byte) rest1 with
    | none =>
      rw [sfq_none_none h35 h63] at hx
      exact absurd hx (List.not_mem_nil x)
    | some p =>
      obtain ⟨c, d⟩ := p
      rw [sfq_none_some h35 h63] at hx
      exact absurd hx (List.not_mem_nil x)
  | some p =>
    obtain ⟨a, b⟩ := p
    rcases splitFirst_eq_some h35 with ⟨hr, _⟩
    cases h63 : splitFirst (63 : Byte) a with
    | none =>
      rw [sfq_some_none h35 h63] at hx
      rw [hr]
      exact List.mem_append.mpr (Or.inr (List.mem_cons_of_mem _ hx))
    | some q =>
      obtain ⟨c, d⟩ := q
      rw [sfq_some_some h35 h63] at hx
      rw [hr]
      exact List.mem_append.mpr (Or.inr (List.mem_cons_of_mem _ hx))

/-- The recovery direction: splitting `A ++ ?query ++ #fragment` gives back
the three parts when `A` contains neither marker and the query contains no
`#`. -/
theorem sfq_recover {A q f : BStr}
    (hA : ∀ x ∈ A, x ≠ (63 : Byte) ∧ x ≠ (35 : Byte))
    (hq : ∀ x ∈ q, x ≠ (35 : Byte)) :
    splitFragQuery (A ++ (if q = [] then [] else (63 : Byte) :: q) ++
      (if f = [] then [] else (35 : Byte) :: f)) = (A, q, f) := by
  have hn35Aq : (35 : Byte) ∉ A ++ (if q = [] then [] else (63 : Byte) :: q) := by
    intro hm
    rcases List.mem_append.mp hm with hA' | hq'
    · exact (hA _ hA').2 rfl
    · split at hq'
      · exact absurd hq' (List.not_mem_nil _)
      · rcases List.mem_cons.mp hq' with he | hq''
        · exact absurd he (by decide)
        · exact hq _ hq'' rfl
  by_cases hf : f = []
  · subst hf
    rw [if_pos rfl, List.append_nil]
    have h35 : splitFirst (35 : Byte) (A ++ (if q = [] then [] else (63 : Byte) :: q)) = none :=
      splitFirst_of_not_mem hn35Aq
    by_cases hq0 : q = []
    · subst hq0
      rw [if_pos rfl, List.append_nil] at h35 ⊢
      exact sfq_none_none h35
        (splitFirst_of_not_mem (fun hm => (hA _ hm).1 rfl))
    · rw [if_neg hq0] at h35 ⊢
      exact sfq_none_some h35 (splitFirst_append (fun hm => (hA _ hm).1 rfl) q)
  · rw [if_neg hf]
    have h35 : splitFirst (35 : Byte)
        ((A ++ (if q = [] then [] else (63 : Byte) :: q)) ++ (35 : Byte) :: f) =
        some (A ++ (if q = [] then [] else (63 : Byte) :: q), f) :=
      splitFirst_append hn35Aq f
    by_cases hq0 : q = []
    · subst hq0
      rw [if_pos rfl] at h35 ⊢
      rw [List.append_nil] at h35 ⊢
      exact sfq_some_none h35 (splitFirst_of_not_mem (fun hm => (hA _ hm).1 rfl))
    · rw [if_neg hq0] at h35 ⊢
      exact sfq_some_some h35 (splitFirst_append (fun hm => (hA _ hm).1 rfl) q)

/-! ## `pyUrlsplitAux` characterization and structural facts -/

theorem pyUrlsplitAux_pos {rest0 : BStr} (h2 : rest0.take 2 = [(47 : Byte), (47 : Byte)])
    (scheme : BStr) :
    pyUrlsplitAux scheme rest0 =
      ⟨scheme, (splitNetloc (rest0.drop 2)).1,
       (splitFragQuery (splitNetloc (rest0.drop 2)).2).1,
       (splitFragQuery (splitNetloc (rest0.drop 2)).2).2.1,
       (splitFragQuery (splitNetloc (rest0.drop 2)).2).2.2⟩ := by
  simp only [pyUrlsplitAux]
  rw [if_pos h2]

theorem pyUrlsplitAux_neg {rest0 : BStr} (h2 : rest0.take 2 ≠ [(47 : Byte), (47 : Byte)])
    (scheme : BStr) :
    pyUrlsplitAux scheme rest0 =
      ⟨scheme, [], (splitFragQuery rest0).1,
       (splitFragQuery rest0).2.1, (splitFragQuery rest0).2.2⟩ := by
  simp only [pyUrlsplitAux]
  rw [if_neg h2]

theorem isAlphaB_47 : isAlphaB (47 : Byte) = false := by decide

theorem goodSchemePre_head47 (cs : BStr) : goodSchemePre ((47 : Byte) :: cs) = false := by
  simp [goodSchemePre, isAlphaB_47]

theorem pyUrlsplitAux_facts (scheme rest0 : BStr)
    (hsch : scheme = [] ∨ goodSchemePre scheme = true)
    (hlow : pyLower scheme = scheme)
    (hclean : ∀ x ∈ rest0, cleanByte x = true)
    (hhead : scheme = [] → ∀ x, rest0.take 1 = [x] → 32 < x.val)
    (hguard : scheme = [] →
      ∀ pre post, splitFirst (58 : Byte) rest0 = some (pre, post) →
        goodSchemePre pre = false) :
    SplitFacts (pyUrlsplitAux scheme rest0) := by
  by_cases h2 : rest0.take 2 = [(47 : Byte), (47 : Byte)]
  · rw [pyUrlsplitAux_pos h2]
    set rest1 := (splitNetloc (rest0.drop 2)).2 with hrest1
    have hrest1sub : ∀ x ∈ rest1, x ∈ rest0 := fun x hx =>
      List.mem_of_mem_drop (splitNetloc_drop_sub x hx)
    have hpathsub : ∀ x ∈ (splitFragQuery rest1).1, x ∈ rest1 := by
      rcases sfq_path_prefix rest1 with ⟨t, ht⟩
      intro x hx
      rw [← ht]
      exact List.mem_append.mpr (Or.inl hx)
    have hpathhead : ∀ x, (splitFragQuery rest1).1.take 1 = [x] → x = (47 : Byte) := by
      intro x hx
      cases hp : (splitFragQuery rest1).1 with
      | nil => rw [hp] at hx; exact absurd hx (by simp)
      | cons c p' =>
        rw [hp] at hx
        have hcx : c = x := by simpa using hx
        rw [← hcx]
        have hc63 := sfq_path_63_35 rest1 c (by rw [hp]; exact List.mem_cons_self _ _)
        rcases sfq_path_prefix rest1 with ⟨t, ht⟩
        rw [hp] at ht
        rcases splitNetloc_drop_head (rest0.drop 2) with hnil | ⟨d, ds, hd, hdelim⟩
        · rw [← hrest1] at hnil
          rw [hnil] at ht
          exact absurd ht (by simp)
        · rw [← hrest1] at hd
          rw [hd] at ht
          have hcd : c = d := by
            have := congrArg (fun l => l.take 1) ht
            simpa using this
          rw [hcd]
          rw [hcd] at hc63
          rcases netlocDelim_cases d hdelim with h47 | h63 | h35
          · exact h47
          · exact absurd h63 hc63.1
          · exact absurd h35 hc63.2
    refine ⟨hsch, hlow, ?_, ?_, ?_, ?_, ?_, ?_, ?_⟩
    · intro x hx
      rcases splitNetloc_take x hx with ⟨hnd, hmem⟩
      exact ⟨hnd, hclean x (List.mem_of_mem_drop hmem)⟩
    · intro x hx
      rcases sfq_path_63_35 rest1 x hx with ⟨h63, h35⟩
      exact ⟨h63, h35, hclean x (hrest1sub x (hpathsub x hx))⟩
    · intro x hx
      rcases sfq_query_35_sub rest1 x hx with ⟨h35, hmem⟩
      exact ⟨h35, hclean x (hrest1sub x hmem)⟩
    · intro x hx
      exact hclean x (hrest1sub x (sfq_frag_sub rest1 x hx))
    · intro _
      cases hp : (splitFragQuery rest1).1 with
      | nil => exact Or.inl rfl
      | cons c p' =>
        right
        have hc : c = (47 : Byte) := hpathhead c (by rw [hp]; rfl)
        show List.take 1 (c :: p') = [(47 : Byte)]
        rw [hc]
        rfl
    · intro _ x hx
      have : x = (47 : Byte) := hpathhead x hx
      rw [this]
      decide
    · intro _ _ pre post hsp
      cases pre with
      | nil => simp [goodSchemePre]
      | cons c cs =>
        rcases splitFirst_eq_some hsp with ⟨hp, _⟩
        have hp' : (splitFragQuery rest1).1 = c :: cs ++ (58 : Byte) :: post := hp
        have hc : c = (47 : Byte) := by
          refine hpathhead c ?_
          rw [hp']
          rfl
        rw [hc]
        exact goodSchemePre_head47 cs
  · rw [pyUrlsplitAux_neg h2]
    have hpathsub : ∀ x ∈ (splitFragQuery rest0).1, x ∈ rest0 := by
      rcases sfq_path_prefix rest0 with ⟨t, ht⟩
      intro x hx
      rw [← ht]
      exact List.mem_append.mpr (Or.inl hx)
    refine ⟨hsch, hlow, ?_, ?_, ?_, ?_, ?_, ?_, ?_⟩
    · intro x hx
      exact absurd hx (List.not_mem_nil x)
    · intro x hx
      rcases sfq_path_63_35 rest0 x hx with ⟨h63, h35⟩
      exact ⟨h63, h35, hclean x (hpathsub x hx)⟩
    · intro x hx
      rcases sfq_query_35_sub rest0 x hx with ⟨h35, hmem⟩
      exact ⟨h35, hclean x hmem⟩
    · intro x hx
      exact hclean x (sfq_frag_sub rest0 x hx)
    · intro hne
      exact absurd rfl hne
    · intro hs x hx
      rcases sfq_path_prefix rest0 with ⟨t, ht⟩
      cases hp : (splitFragQuery rest0).1 with
      | nil => rw [hp] at hx; exact absurd hx (by simp)
      | cons c p' =>
        rw [hp] at hx
        have hcx : c = x := by simpa using hx
        rw [hp] at ht
        refine hhead hs x ?_
        rw [← ht, ← hcx]
        rfl
    · intro hs _ pre post hsp
      rcases sfq_path_prefix rest0 with ⟨t, ht⟩
      have hsp' : splitFirst (58 : Byte) rest0 = some (pre, post ++ t) := by
        rw [← ht]
        exact splitFirst_append_left hsp t
      exact hguard hs pre (post ++ t) hsp'

/-- Every `pyUrlsplit` result satisfies the structural facts. -/
theorem pyUrlsplit_facts (u : BStr) : SplitFacts (pyUrlsplit u) := by
  show SplitFacts (pyUrlsplitAux (splitScheme (removeUnsafe (lstripC0 u))).1
    (splitScheme (removeUnsafe (lstripC0 u))).2)
  have hclean1 : ∀ x ∈ removeUnsafe (lstripC0 u), cleanByte x = true := removeUnsafe_clean
  rcases splitScheme_cases (removeUnsafe (lstripC0 u)) with ⟨heq, hguard⟩ |
    ⟨pre, post, hf, hg, heq⟩
  · rw [heq]
    refine pyUrlsplitAux_facts [] _ (Or.inl rfl) rfl hclean1 ?_ (fun _ => hguard)
    intro _ x hx
    rcases url1_head u with hnil | ⟨c, cs, hc, hgt⟩
    · rw [hnil] at hx
      exact absurd hx (by simp)
    · rw [hc] at hx
      have hcx : c = x := by simpa using hx
      rw [← hcx]
      exact hgt
  · rw [heq]
    have hpre : pyLower pre ≠ [] := by
      rcases goodSchemePre_spec hg with ⟨c, cs, rfl, _, _⟩
      simp [pyLower]
    refine pyUrlsplitAux_facts (pyLower pre) post
      (Or.inr (goodSchemePre_lower hg)) (pyLower_idem pre) ?_
      (fun h => absurd h hpre) (fun h => absurd h hpre)
    intro x hx
    rcases splitFirst_eq_some hf with ⟨hu, _⟩
    refine hclean1 x ?_
    rw [hu]
    exact List.mem_append.mpr (Or.inr (List.mem_cons_of_mem _ hx))

/-! ## `splitParams` and `joinParams` analysis -/

theorem joinParams_nil (p : BStr) : joinParams p [] = p := by
  simp [joinParams]

theorem joinParams_ne {q : BStr} (h : q ≠ []) (p : BStr) :
    joinParams p q = p ++ (59 : Byte) :: q := by
  simp [joinParams, h]

theorem mem_joinParams {x : Byte} {p q : BStr} (h : x ∈ joinParams p q) :
    x ∈ p ∨ x = (59 : Byte) ∨ x ∈ q := by
  by_cases hq : q = []
  · subst hq
    rw [joinParams_nil] at h
    exact Or.inl h
  · rw [joinParams_ne hq] at h
    rcases List.mem_append.mp h with hp | hr
    · exact Or.inl hp
    · rcases List.mem_cons.mp hr with rfl | hq'
      · exact Or.inr (Or.inl rfl)
      · exact Or.inr (Or.inr hq')

theorem splitParams_no59 {url : BStr} (h : (59 : Byte) ∉ url) : splitParams url = (url, []) := by
  cases h47 : splitLast (47 : Byte) url with
  | none => simp only [splitParams, h47, splitFirst_of_not_mem h]
  | some p =>
    obtain ⟨p1, p2⟩ := p
    rcases splitLast_eq_some h47 with ⟨hu, _⟩
    have hsub : (59 : Byte) ∉ p2 := fun hm =>
      h (by rw [hu]; exact List.mem_append.mpr (Or.inr (List.mem_cons_of_mem _ hm)))
    simp only [splitParams, h47, splitFirst_of_not_mem hsub]

/-- When the path ends with a slash and the params avoid `/`, splitting the
re-joined `path;params` recovers the pair exactly. -/
theorem splitParams_trailing_slash {ph params : BStr} (hp : ∃ pi, ph = pi ++ [(47 : Byte)])
    (hpar : (47 : Byte) ∉ params) :
    splitParams (joinParams ph params) = (ph, params) := by
  obtain ⟨pi, rfl⟩ := hp
  by_cases hq : params = []
  · subst hq
    rw [joinParams_nil]
    have h47 : splitLast (47 : Byte) (pi ++ [(47 : Byte)]) = some (pi, []) :=
      splitLast_append (List.not_mem_nil _) pi
    simp only [splitParams, h47, splitFirst]
  · rw [joinParams_ne hq]
    have hassoc : (pi ++ [(47 : Byte)]) ++ (59 : Byte) :: params =
        pi ++ (47 : Byte) :: ((59 : Byte) :: params) := by simp
    have h47 : splitLast (47 : Byte) ((pi ++ [(47 : Byte)]) ++ (59 : Byte) :: params) =
        some (pi, (59 : Byte) :: params) := by
      rw [hassoc]
      refine splitLast_append ?_ pi
      intro hm
      rcases List.mem_cons.mp hm with he | hm'
      · exact absurd he (by decide)
      · exact hpar hm'
    have h59 : splitFirst (59 : Byte) ((59 : Byte) :: params) = some ([], params) := by
      simp [splitFirst]
    simp only [splitParams, h47, h59]

/-- The path part of `splitParams` is a prefix of the input. -/
theorem splitParams_prefix (url : BStr) : ∃ t, (splitParams url).1 ++ t = url := by
  cases h47 : splitLast (47 : Byte) url with
  | none =>
    cases h59 : splitFirst (59 : Byte) url with
    | none =>
      simp only [splitParams, h47, h59]
      exact ⟨[], List.append_nil _⟩
    | some q =>
      obtain ⟨q1, q2⟩ := q
      simp only [splitParams, h47, h59]
      exact ⟨(59 : Byte) :: q2, (splitFirst_eq_some h59).1.symm⟩
  | some p =>
    obtain ⟨p1, p2⟩ := p
    rcases splitLast_eq_some h47 with ⟨hu, hn47⟩
    cases h59 : splitFirst (59 : Byte) p2 with
    | none =>
      simp only [splitParams, h47, h59]
      exact ⟨[], List.append_nil _⟩
    | some q =>
      obtain ⟨q1, q2⟩ := q
      rcases splitFirst_eq_some h59 with ⟨hp2, _⟩
      simp only [splitParams, h47, h59]
      refine ⟨(59 : Byte) :: q2, ?_⟩
      rw [hu, hp2]
      simp

/-- The params part of `splitParams` avoids `/` and draws from the input. -/
theorem splitParams_params (url : BStr) :
    ∀ x ∈ (splitParams url).2, x ∈ url ∧ x ≠ (47 : Byte) := by
  intro x hx
  cases h47 : splitLast (47 : Byte) url with
  | none =>
    have hn47 : (47 : Byte) ∉ url := splitLast_eq_none h47
    cases h59 : splitFirst (59 : Byte) url with
    | none =>
      simp only [splitParams, h47, h59] at hx
      exact absurd hx (List.not_mem_nil x)
    | some q =>
      obtain ⟨q1, q2⟩ := q
      rcases splitFirst_eq_some h59 with ⟨hu, _⟩
      simp only [splitParams, h47, h59] at hx
      have hmem : x ∈ url := by
        rw [hu]
        exact List.mem_append.mpr (Or.inr (List.mem_cons_of_mem _ hx))
      exact ⟨hmem, fun he => hn47 (he ▸ hmem)⟩
  | some p =>
    obtain ⟨p1, p2⟩ := p
    rcases splitLast_eq_some h47 with ⟨hu, hn47⟩
    cases h59 : splitFirst (59 : Byte) p2 with
    | none =>
      simp only [splitParams, h47, h59] at hx
      exact absurd hx (List.not_mem_nil x)
    | some q =>
      obtain ⟨q1, q2⟩ := q
      rcases splitFirst_eq_some h59 with ⟨hp2, _⟩
      simp only [splitParams, h47, h59] at hx
      have hmem2 : x ∈ p2 := by
        rw [hp2]
        exact List.mem_append.mpr (Or.inr (List.mem_cons_of_mem _ hx))
      refine ⟨?_, fun he => hn47 (he ▸ hmem2)⟩
      rw [hu]
      exact List.mem_append.mpr (Or.inr (List.mem_cons_of_mem _ hmem2))

/-- Splitting the re-joined output of `splitParams` gives the same pair back
(`_splitparams` is a retraction). -/
theorem splitParams_join (url : BStr) :
    splitParams (joinParams (splitParams url).1 (splitParams url).2) =
      ((splitParams url).1, (splitParams url).2) := by
  cases h47 : splitLast (47 : Byte) url with
  | none =>
    have hn47 : (47 : Byte) ∉ url := splitLast_eq_none h47
    cases h59 : splitFirst (59 : Byte) url with
    | none =>
      simp only [splitParams, h47, h59, joinParams_nil]
    | some q =>
      obtain ⟨q1, q2⟩ := q
      rcases splitFirst_eq_some h59 with ⟨hu, hn59q1⟩
      have hn47q1 : (47 : Byte) ∉ q1 := fun hm =>
        hn47 (by rw [hu]; exact List.mem_append.mpr (Or.inl hm))
      have hn47q2 : (47 : Byte) ∉ q2 := fun hm =>
        hn47 (by rw [hu]; exact List.mem_append.mpr (Or.inr (List.mem_cons_of_mem _ hm)))
      simp only [splitParams, h47, h59]
      by_cases hq2 : q2 = []
      · subst hq2
        rw [joinParams_nil]
        simp only [splitParams, splitLast_of_not_mem hn47q1, splitFirst_of_not_mem hn59q1]
      · rw [joinParams_ne hq2]
        have h47' : splitLast (47 : Byte) (q1 ++ (59 : Byte) :: q2) = none := by
          refine splitLast_of_not_mem ?_
          intro hm
          rcases List.mem_append.mp hm with hm1 | hm2
          · exact hn47q1 hm1
          · rcases List.mem_cons.mp hm2 with he | hm3
            · exact absurd he (by decide)
            · exact hn47q2 hm3
        have h59' : splitFirst (59 : Byte) (q1 ++ (59 : Byte) :: q2) = some (q1, q2) :=
          splitFirst_append hn59q1 q2
        simp only [splitParams, h47', h59']
  | some p =>
    obtain ⟨p1, p2⟩ := p
    rcases splitLast_eq_some h47 with ⟨hu, hn47p2⟩
    cases h59 : splitFirst (59 : Byte) p2 with
    | none =>
      simp only [splitParams, h47, h59, joinParams_nil]
    | some q =>
      obtain ⟨q1, q2⟩ := q
      rcases splitFirst_eq_some h59 with ⟨hp2, hn59q1⟩
      have hn47q1 : (47 : Byte) ∉ q1 := fun hm =>
        hn47p2 (by rw [hp2]; exact List.mem_append.mpr (Or.inl hm))
      have hn47q2 : (47 : Byte) ∉ q2 := fun hm =>
        hn47p2 (by rw [hp2]; exact List.mem_append.mpr (Or.inr (List.mem_cons_of_mem _ hm)))
      simp only [splitParams, h47, h59]
      by_cases hq2 : q2 = []
      · subst hq2
        rw [joinParams_nil]
        have h47' : splitLast (47 : Byte) (p1 ++ (47 : Byte) :: q1) = some (p1, q1) :=
          splitLast_append hn47q1 p1
        simp only [splitParams, h47', splitFirst_of_not_mem hn59q1]
      · rw [joinParams_ne hq2]
        have hassoc : (p1 ++ (47 : Byte) :: q1) ++ (59 : Byte) :: q2 =
            p1 ++ (47 : Byte) :: (q1 ++ (59 : Byte) :: q2) := by simp
        have h47' : splitLast (47 : Byte) ((p1 ++ (47 : Byte) :: q1) ++ (59 : Byte) :: q2) =
            some (p1, q1 ++ (59 : Byte) :: q2) := by
          rw [hassoc]
          refine splitLast_append ?_ p1
          intro hm
          rcases List.mem_append.mp hm with hm1 | hm2
          · exact hn47q1 hm1
          · rcases List.mem_cons.mp hm2 with he | hm3
            · exact absurd he (by decide)
            · exact hn47q2 hm3
        have h59' : splitFirst (59 : Byte) (q1 ++ (59 : Byte) :: q2) = some (q1, q2) :=
          splitFirst_append hn59q1 q2
        simp only [splitParams, h47', h59']

/-! ## `pyUrlparse` characterization and structural facts -/

theorem pyUrlparse_pos {u : BStr}
    (h : (pyUrlsplit u).scheme ∈ usesParams ∧ (59 : Byte) ∈ (pyUrlsplit u).path) :
    pyUrlparse u =
      ⟨(pyUrlsplit u).scheme, (pyUrlsplit u).netloc, (splitParams (pyUrlsplit u).path).1,
       (splitParams (pyUrlsplit u).path).2, (pyUrlsplit u).query, (pyUrlsplit u).fragment⟩ := by
  simp only [pyUrlparse]
  rw [if_pos h]

theorem pyUrlparse_neg {u : BStr}
    (h : ¬ ((pyUrlsplit u).scheme ∈ usesParams ∧ (59 : Byte) ∈ (pyUrlsplit u).path)) :
    pyUrlparse u =
      ⟨(pyUrlsplit u).scheme, (pyUrlsplit u).netloc, (pyUrlsplit u).path, [],
       (pyUrlsplit u).query, (pyUrlsplit u).fragment⟩ := by
  simp only [pyUrlparse]
  rw [if_neg h]

/-- Every `pyUrlparse` result satisfies the structural facts. -/
theorem pyUrlparse_facts (u : BStr) : ParseFacts (pyUrlparse u) := by
  have hs := pyUrlsplit_facts u
  by_cases h : (pyUrlsplit u).scheme ∈ usesParams ∧ (59 : Byte) ∈ (pyUrlsplit u).path
  · rw [pyUrlparse_pos h]
    rcases splitParams_prefix (pyUrlsplit u).path with ⟨t, ht⟩
    have hpsub : ∀ x ∈ (splitParams (pyUrlsplit u).path).1, x ∈ (pyUrlsplit u).path := by
      intro x hx
      rw [← ht]
      exact List.mem_append.mpr (Or.inl hx)
    refine ⟨hs.scheme_ok, hs.scheme_lower, hs.netloc_ok, ?_, ?_, ?_, ?_, hs.query_ok,
      hs.fragment_ok, ?_, ?_, ?_⟩
    · intro x hx
      exact hs.path_ok x (hpsub x hx)
    · intro x hx
      rcases splitParams_params (pyUrlsplit u).path x hx with ⟨hmem, h47⟩
      rcases hs.path_ok x hmem with ⟨h63, h35, hcl⟩
      exact ⟨h47, h63, h35, hcl⟩
    · intro _
      exact h.1
    · intro _
      exact splitParams_join (pyUrlsplit u).path
    · intro hne
      rcases hs.netloc_path hne with hnil | h47
      · left
        rw [hnil] at ht ⊢
        rcases List.append_eq_nil.mp ht with ⟨h1, _⟩
        exact h1
      · cases hp1 : (splitParams (pyUrlsplit u).path).1 with
        | nil => exact Or.inl rfl
        | cons c p' =>
          right
          rw [hp1] at ht
          have : (pyUrlsplit u).path.take 1 = [c] := by
            rw [← ht]
            rfl
          rw [this] at h47
          have hc : c = (47 : Byte) := by
            have : ([c] : BStr) = [(47 : Byte)] := h47
            simpa using this
          rw [hc]
          rfl
    · intro hsch x hx
      refine hs.path_head32 hsch x ?_
      cases hp1 : (splitParams (pyUrlsplit u).path).1 with
      | nil => rw [hp1] at hx; exact absurd hx (by simp)
      | cons c p' =>
        rw [hp1] at hx
        have hcx : c = x := by simpa using hx
        rw [hp1] at ht
        rw [← ht, ← hcx]
        rfl
    · intro hsch hnl pre post hsp
      have hsp' : splitFirst (58 : Byte) (pyUrlsplit u).path = some (pre, post ++ t) := by
        rw [← ht]
        exact splitFirst_append_left hsp t
      exact hs.scheme_guard hsch hnl pre (post ++ t) hsp'
  · rw [pyUrlparse_neg h]
    refine ⟨hs.scheme_ok, hs.scheme_lower, hs.netloc_ok, hs.path_ok, ?_, ?_, ?_,
      hs.query_ok, hs.fragment_ok, hs.netloc_path, hs.path_head32, hs.scheme_guard⟩
    · intro x hx
      exact absurd hx (List.not_mem_nil x)
    · intro hne
      exact absurd rfl hne
    · intro hsch
      have h59 : (59 : Byte) ∉ (pyUrlsplit u).path := fun hm => h ⟨hsch, hm⟩
      rw [joinParams_nil]
      exact splitParams_no59 h59

/-! ## `pyUrlunsplit` decomposition -/

theorem pyUrlunsplit_eq (r : SplitResult) :
    pyUrlunsplit r = unsplitPre r ++
      ((if r.query = [] then [] else (63 : Byte) :: r.query) ++
       (if r.fragment = [] then [] else (35 : Byte) :: r.fragment)) := by
  simp only [pyUrlunsplit, unsplitPre, unsplitPath]
  by_cases hq : r.query = [] <;> by_cases hf : r.fragment = [] <;>
    simp [hq, hf, List.append_assoc]

theorem unsplitPath_mem {r : SplitResult} {x : Byte} (h : x ∈ unsplitPath r) :
    x ∈ r.netloc ∨ x ∈ r.path ∨ x = (47 : Byte) := by
  unfold unsplitPath at h
  split at h
  · rcases List.mem_cons.mp h with rfl | h1
    · exact Or.inr (Or.inr rfl)
    rcases List.mem_cons.mp h1 with rfl | h2
    · exact Or.inr (Or.inr rfl)
    rcases List.mem_append.mp h2 with hn | h3
    · exact Or.inl hn
    split at h3
    · rcases List.mem_cons.mp h3 with rfl | h4
      · exact Or.inr (Or.inr rfl)
      · exact Or.inr (Or.inl h4)
    · exact Or.inr (Or.inl h3)
  · exact Or.inr (Or.inl h)

theorem unsplitPre_mem {r : SplitResult} {x : Byte} (h : x ∈ unsplitPre r) :
    x ∈ r.scheme ∨ x ∈ r.netloc ∨ x ∈ r.path ∨ x = (58 : Byte) ∨ x = (47 : Byte) := by
  unfold unsplitPre at h
  split at h
  · rcases List.mem_append.mp h with hs | h1
    · exact Or.inl hs
    rcases List.mem_cons.mp h1 with rfl | h2
    · exact Or.inr (Or.inr (Or.inr (Or.inl rfl)))
    rcases unsplitPath_mem h2 with a | b | c
    · exact Or.inr (Or.inl a)
    · exact Or.inr (Or.inr (Or.inl b))
    · exact Or.inr (Or.inr (Or.inr (Or.inr c)))
  · rcases unsplitPath_mem h with a | b | c
    · exact Or.inr (Or.inl a)
    · exact Or.inr (Or.inr (Or.inl b))
    · exact Or.inr (Or.inr (Or.inr (Or.inr c)))

/-! ## Query/fragment recovery through `urlunsplit` then `urlsplit` -/

/-- When the pre-query part of the unsplit output avoids the query/fragment
markers and the unsafe bytes, `urlsplit` recovers the query and fragment of
the components exactly — whatever else it makes of the scheme and netloc. -/
theorem split_unsplit_qf {r : SplitResult}
    (hpre : ∀ x ∈ unsplitPre r, x ≠ (63 : Byte) ∧ x ≠ (35 : Byte) ∧ cleanByte x = true)
    (hq : ∀ x ∈ r.query, x ≠ (35 : Byte) ∧ cleanByte x = true)
    (hf : ∀ x ∈ r.fragment, cleanByte x = true) :
    (pyUrlsplit (pyUrlunsplit r)).query = r.query ∧
    (pyUrlsplit (pyUrlunsplit r)).fragment = r.fragment := by
  set qt := (if r.query = [] then [] else (63 : Byte) :: r.query) with hqt
  set ft := (if r.fragment = [] then [] else (35 : Byte) :: r.fragment) with hft
  have hqtft : qt ++ ft = [] ∨
      ∃ d w, qt ++ ft = d :: w ∧ (d = (63 : Byte) ∨ d = (35 : Byte)) := by
    rw [hqt, hft]
    by_cases h1 : r.query = []
    · by_cases h2 : r.fragment = []
      · left; simp [h1, h2]
      · exact Or.inr ⟨35, r.fragment, by simp [h1, h2], Or.inr rfl⟩
    · exact Or.inr ⟨63, r.query ++ (if r.fragment = [] then [] else (35 : Byte) :: r.fragment),
        by simp [h1], Or.inl rfl⟩
  have htailclean : ∀ x ∈ qt ++ ft, cleanByte x = true := by
    intro x hx
    rcases List.mem_append.mp hx with h1 | h2
    · rw [hqt] at h1
      split at h1
      · exact absurd h1 (List.not_mem_nil x)
      · rcases List.mem_cons.mp h1 with rfl | h3
        · decide
        · exact (hq x h3).2
    · rw [hft] at h2
      split at h2
      · exact absurd h2 (List.not_mem_nil x)
      · rcases List.mem_cons.mp h2 with rfl | h3
        · decide
        · exact hf x h3
  have hdecomp : pyUrlunsplit r = unsplitPre r ++ (qt ++ ft) := by
    rw [hqt, hft]
    exact pyUrlunsplit_eq r
  have htail0 : qt ++ ft = [] ∨
      ∃ d w, qt ++ ft = d :: w ∧ (fun c : Byte => decide (c.val ≤ 32)) d = false := by
    rcases hqtft with h | ⟨d, w, hdw, hd⟩
    · exact Or.inl h
    · refine Or.inr ⟨d, w, hdw, ?_⟩
      rcases hd with rfl | rfl <;> decide
  obtain ⟨zs, hzs, hzsub⟩ :=
    dropWhile_append_exists (fun c : Byte => decide (c.val ≤ 32)) (unsplitPre r) (qt ++ ft) htail0
  have hurl1 : removeUnsafe (lstripC0 (pyUrlunsplit r)) = zs ++ (qt ++ ft) := by
    rw [hdecomp]
    unfold lstripC0
    rw [hzs]
    unfold removeUnsafe
    refine List.filter_eq_self.mpr ?_
    intro a ha
    rcases List.mem_append.mp ha with h1 | h2
    · exact (hpre a (hzsub a h1)).2.2
    · exact htailclean a h2
  have hzs6335 : ∀ x ∈ zs, x ≠ (63 : Byte) ∧ x ≠ (35 : Byte) := fun x hx =>
    ⟨(hpre x (hzsub x hx)).1, (hpre x (hzsub x hx)).2.1⟩
  obtain ⟨B, hB, hB6335⟩ :
      ∃ B, (splitScheme (zs ++ (qt ++ ft))).2 = B ++ (qt ++ ft) ∧
        ∀ x ∈ B, x ≠ (63 : Byte) ∧ x ≠ (35 : Byte) := by
    rcases splitScheme_cases (zs ++ (qt ++ ft)) with ⟨heq, _⟩ | ⟨pre, post, hsf, hg, heq⟩
    · exact ⟨zs, by rw [heq], hzs6335⟩
    · cases hsz : splitFirst (58 : Byte) zs with
      | some p =>
        obtain ⟨a, b⟩ := p
        have hleft := splitFirst_append_left hsz (qt ++ ft)
        rw [hleft] at hsf
        simp only [Option.some.injEq, Prod.mk.injEq] at hsf
        obtain ⟨rfl, rfl⟩ := hsf
        refine ⟨b, by rw [heq], ?_⟩
        intro x hx
        have hbz : x ∈ zs := by
          rw [(splitFirst_eq_some hsz).1]
          exact List.mem_append.mpr (Or.inr (List.mem_cons_of_mem _ hx))
        exact hzs6335 x hbz
      | none =>
        have hmap := splitFirst_append_right (splitFirst_none_not_mem hsz) (qt ++ ft)
        rw [hmap] at hsf
        cases hqf : splitFirst (58 : Byte) (qt ++ ft) with
        | none =>
          rw [hqf] at hsf
          exact absurd hsf (by simp)
        | some g =>
          obtain ⟨g1, g2⟩ := g
          rw [hqf] at hsf
          simp only [Option.map_some', Option.some.injEq, Prod.mk.injEq] at hsf
          obtain ⟨hpre', rfl⟩ := hsf
          exfalso
          rcases hqtft with hnil | ⟨d, w, hdw, hd⟩
          · rw [hnil] at hqf
            simp [splitFirst] at hqf
          · rcases splitFirst_eq_some hqf with ⟨hqfeq, _⟩
            cases g1 with
            | nil =>
              rw [hdw] at hqfeq
              have hd58 : d = (58 : Byte) := by
                have := congrArg (fun l => l.take 1) hqfeq
                simpa using this
              rcases hd with rfl | rfl <;> exact absurd hd58 (by decide)
            | cons e g1' =>
              rw [hdw] at hqfeq
              have hed : d = e := by
                have := congrArg (fun l => l.take 1) hqfeq
                simpa using this
              have hmem : e ∈ pre := by
                rw [← hpre']
                exact List.mem_append.mpr (Or.inr (List.mem_cons_self _ _))
              rcases goodSchemePre_spec hg with ⟨c0, cs0, hpeq, _, hall⟩
              have hsc := hall e (by rw [← hpeq]; exact hmem)
              rcases hd with rfl | rfl
              · rw [← hed] at hsc
                exact absurd hsc (by decide)
              · rw [← hed] at hsc
                exact absurd hsc (by decide)
  have hshow : pyUrlsplit (pyUrlunsplit r) =
      pyUrlsplitAux (splitScheme (zs ++ (qt ++ ft))).1 (splitScheme (zs ++ (qt ++ ft))).2 := by
    show pyUrlsplitAux (splitScheme (removeUnsafe (lstripC0 (pyUrlunsplit r)))).1
      (splitScheme (removeUnsafe (lstripC0 (pyUrlunsplit r)))).2 = _
    rw [hurl1]
  rw [hshow, hB]
  have hq' : ∀ x ∈ r.query, x ≠ (35 : Byte) := fun x hx => (hq x hx).1
  by_cases h2 : (B ++ (qt ++ ft)).take 2 = [(47 : Byte), (47 : Byte)]
  · have hBshape : ∃ B', B = (47 : Byte) :: (47 : Byte) :: B' := by
      cases B with
      | nil =>
        exfalso
        rcases hqtft with hnil | ⟨d, w, hdw, hd⟩
        · rw [List.nil_append, hnil] at h2
          exact absurd h2 (by simp)
        · rw [List.nil_append, hdw] at h2
          have hd47 : d = (47 : Byte) := by
            have := congrArg (fun l => l.take 1) h2
            simpa using this
          rcases hd with rfl | rfl <;> exact absurd hd47 (by decide)
      | cons b0 B1 =>
        cases B1 with
        | nil =>
          exfalso
          rcases hqtft with hnil | ⟨d, w, hdw, hd⟩
          · rw [hnil, List.append_nil] at h2
            exact absurd (congrArg List.length h2) (by simp)
          · rw [hdw] at h2
            have h2' : ([b0, d] : BStr) = [(47 : Byte), (47 : Byte)] := h2
            have hd47 : d = (47 : Byte) := by
              have := congrArg (fun l => l.drop 1) h2'
              simpa using this
            rcases hd with rfl | rfl <;> exact absurd hd47 (by decide)
        | cons b1 B2 =>
          refine ⟨B2, ?_⟩
          have h2' : ([b0, b1] : BStr) = [(47 : Byte), (47 : Byte)] := h2
          have hb : b0 = (47 : Byte) ∧ b1 = (47 : Byte) := by
            have h0 := congrArg (fun l => l.take 1) h2'
            have h1 := congrArg (fun l => l.drop 1) h2'
            exact ⟨by simpa using h0, by simpa using h1⟩
          rw [hb.1, hb.2]
    obtain ⟨B', rfl⟩ := hBshape
    rw [pyUrlsplitAux_pos h2]
    have hdrop : (((47 : Byte) :: (47 : Byte) :: B') ++ (qt ++ ft)).drop 2 =
        B' ++ (qt ++ ft) := rfl
    rw [hdrop]
    have htailn : qt ++ ft = [] ∨
        ∃ d w, qt ++ ft = d :: w ∧ (fun c : Byte => !netlocDelim c) d = false := by
      rcases hqtft with h | ⟨d, w, hdw, hd⟩
      · exact Or.inl h
      · refine Or.inr ⟨d, w, hdw, ?_⟩
        rcases hd with rfl | rfl <;> decide
    obtain ⟨ws, hws, hwsub⟩ :=
      dropWhile_append_exists (fun c : Byte => !netlocDelim c) B' (qt ++ ft) htailn
    have hnl2 : (splitNetloc (B' ++ (qt ++ ft))).2 = ws ++ (qt ++ ft) := hws
    rw [hnl2]
    have hA' : ∀ x ∈ ws, x ≠ (63 : Byte) ∧ x ≠ (35 : Byte) := by
      intro x hx
      exact hB6335 x (List.mem_cons_of_mem _ (List.mem_cons_of_mem _ (hwsub x hx)))
    have hrecover : splitFragQuery ((ws ++ qt) ++ ft) = (ws, r.query, r.fragment) := by
      rw [hqt, hft]
      exact sfq_recover hA' hq'
    rw [show ws ++ (qt ++ ft) = (ws ++ qt) ++ ft from (List.append_assoc ws qt ft).symm,
      hrecover]
    exact ⟨rfl, rfl⟩
  · rw [pyUrlsplitAux_neg h2]
    have hrecover : splitFragQuery ((B ++ qt) ++ ft) = (B, r.query, r.fragment) := by
      rw [hqt, hft]
      exact sfq_recover hB6335 hq'
    rw [show B ++ (qt ++ ft) = (B ++ qt) ++ ft from (List.append_assoc B qt ft).symm,
      hrecover]
    exact ⟨rfl, rfl⟩

theorem alpha_gt32 : ∀ c : Byte, isAlphaB c = true → decide (c.val ≤ 32) = false := by
  decide

/-- Full `urlsplit ∘ urlunsplit` round trip on a well-shaped split result:
good lower-case scheme, delimiter-free netloc, `/`-headed marker-free path
(not `//`-headed when the netloc is empty), `#`-free query, all clean. -/
theorem split_unsplit_roundtrip (s n p q f : BStr)
    (hsch : goodSchemePre s = true)
    (hlow : pyLower s = s)
    (hnl : ∀ x ∈ n, netlocDelim x = false ∧ cleanByte x = true)
    (hpath : ∀ x ∈ p, x ≠ (63 : Byte) ∧ x ≠ (35 : Byte) ∧ cleanByte x = true)
    (hp1 : p.take 1 = [(47 : Byte)])
    (hnep : n = [] → p.take 2 ≠ [(47 : Byte), (47 : Byte)])
    (hq : ∀ x ∈ q, x ≠ (35 : Byte) ∧ cleanByte x = true)
    (hf : ∀ x ∈ f, cleanByte x = true) :
    pyUrlsplit (pyUrlunsplit ⟨s, n, p, q, f⟩) = ⟨s, n, p, q, f⟩ := by
  obtain ⟨p', rfl⟩ : ∃ p', p = (47 : Byte) :: p' := by
    cases p with
    | nil => exact absurd hp1 (by simp)
    | cons a p' =>
      have ha : a = (47 : Byte) := by simpa using hp1
      exact ⟨p', by rw [ha]⟩
  obtain ⟨c0, cs0, hseq, hal, hall⟩ := goodSchemePre_spec hsch
  have hsne : s ≠ [] := by rw [hseq]; simp
  set qt := (if q = [] then [] else (63 : Byte) :: q) with hqt
  set ft := (if f = [] then [] else (35 : Byte) :: f) with hft
  have hqtft : qt ++ ft = [] ∨
      ∃ d w, qt ++ ft = d :: w ∧ (d = (63 : Byte) ∨ d = (35 : Byte)) := by
    rw [hqt, hft]
    by_cases h1 : q = []
    · by_cases h2 : f = []
      · left; simp [h1, h2]
      · exact Or.inr ⟨35, f, by simp [h1, h2], Or.inr rfl⟩
    · exact Or.inr ⟨63, q ++ (if f = [] then [] else (35 : Byte) :: f), by simp [h1], Or.inl rfl⟩
  have htailclean : ∀ x ∈ qt ++ ft, cleanByte x = true := by
    intro x hx
    rcases List.mem_append.mp hx with h1 | h2
    · rw [hqt] at h1
      split at h1
      · exact absurd h1 (List.not_mem_nil x)
      · rcases List.mem_cons.mp h1 with rfl | h3
        · decide
        · exact (hq x h3).2
    · rw [hft] at h2
      split at h2
      · exact absurd h2 (List.not_mem_nil x)
      · rcases List.mem_cons.mp h2 with rfl | h3
        · decide
        · exact hf x h3
  have hdecomp : pyUrlunsplit ⟨s, n, (47 : Byte) :: p', q, f⟩ =
      unsplitPre ⟨s, n, (47 : Byte) :: p', q, f⟩ ++ (qt ++ ft) := by
    rw [hqt, hft]
    exact pyUrlunsplit_eq _
  have hpre : unsplitPre ⟨s, n, (47 : Byte) :: p', q, f⟩ =
      s ++ (58 : Byte) :: unsplitPath ⟨s, n, (47 : Byte) :: p', q, f⟩ := by
    unfold unsplitPre
    rw [if_pos hsne]
  have hclean : ∀ x ∈ pyUrlunsplit ⟨s, n, (47 : Byte) :: p', q, f⟩, cleanByte x = true := by
    intro x hx
    rw [hdecomp] at hx
    rcases List.mem_append.mp hx with h1 | h2
    · rcases unsplitPre_mem h1 with hxs | hxn | hxp | rfl | rfl
      · exact goodSchemePre_clean hsch x hxs
      · exact (hnl x hxn).2
      · exact (hpath x hxp).2.2
      · decide
      · decide
    · exact htailclean x h2
  have hshape : pyUrlunsplit ⟨s, n, (47 : Byte) :: p', q, f⟩ =
      c0 :: ((cs0 ++ (58 : Byte) :: unsplitPath ⟨s, n, (47 : Byte) :: p', q, f⟩) ++
        (qt ++ ft)) := by
    rw [hdecomp, hpre, hseq]
    simp
  have hurl1 : removeUnsafe (lstripC0 (pyUrlunsplit ⟨s, n, (47 : Byte) :: p', q, f⟩)) =
      pyUrlunsplit ⟨s, n, (47 : Byte) :: p', q, f⟩ := by
    unfold lstripC0
    rw [hshape, dropWhile_head_false (alpha_gt32 c0 hal), ← hshape]
    unfold removeUnsafe
    exact List.filter_eq_self.mpr hclean
  have hsplit : pyUrlunsplit ⟨s, n, (47 : Byte) :: p', q, f⟩ =
      s ++ (58 : Byte) :: (unsplitPath ⟨s, n, (47 : Byte) :: p', q, f⟩ ++ (qt ++ ft)) := by
    rw [hdecomp, hpre]
    simp
  have hss1 : (splitScheme (pyUrlunsplit ⟨s, n, (47 : Byte) :: p', q, f⟩)).1 = s := by
    rw [hsplit, splitScheme_of_append hsch, hlow]
  have hss2 : (splitScheme (pyUrlunsplit ⟨s, n, (47 : Byte) :: p', q, f⟩)).2 =
      unsplitPath ⟨s, n, (47 : Byte) :: p', q, f⟩ ++ (qt ++ ft) := by
    rw [hsplit, splitScheme_of_append hsch]
  have hA : ∀ x ∈ (47 : Byte) :: p', x ≠ (63 : Byte) ∧ x ≠ (35 : Byte) := fun x hx =>
    ⟨(hpath x hx).1, (hpath x hx).2.1⟩
  have hq35 : ∀ x ∈ q, x ≠ (35 : Byte) := fun x hx => (hq x hx).1
  show pyUrlsplitAux
      (splitScheme (removeUnsafe (lstripC0 (pyUrlunsplit ⟨s, n, (47 : Byte) :: p', q, f⟩)))).1
      (splitScheme (removeUnsafe (lstripC0 (pyUrlunsplit ⟨s, n, (47 : Byte) :: p', q, f⟩)))).2 =
      ⟨s, n, (47 : Byte) :: p', q, f⟩
  rw [hurl1, hss1, hss2]
  by_cases hcond : n ≠ [] ∨
      (s ≠ [] ∧ s ∈ usesNetloc ∧ ((47 : Byte) :: p').take 2 ≠ [(47 : Byte), (47 : Byte)])
  · have hupath : unsplitPath ⟨s, n, (47 : Byte) :: p', q, f⟩ =
        (47 : Byte) :: (47 : Byte) :: (n ++ ((47 : Byte) :: p')) := by
      simp only [unsplitPath]
      rw [if_pos hcond, if_neg]
      simp
    rw [hupath]
    have h2 : (((47 : Byte) :: (47 : Byte) :: (n ++ ((47 : Byte) :: p'))) ++ (qt ++ ft)).take 2 =
        [(47 : Byte), (47 : Byte)] := rfl
    rw [pyUrlsplitAux_pos h2]
    have hdrop : (((47 : Byte) :: (47 : Byte) :: (n ++ ((47 : Byte) :: p'))) ++
        (qt ++ ft)).drop 2 = (n ++ ((47 : Byte) :: p')) ++ (qt ++ ft) := rfl
    rw [hdrop]
    have hntrue : ∀ x ∈ n, (fun c : Byte => !netlocDelim c) x = true := by
      intro x hx
      simp [(hnl x hx).1]
    have hassoc : (n ++ ((47 : Byte) :: p')) ++ (qt ++ ft) =
        n ++ (47 : Byte) :: (p' ++ (qt ++ ft)) := by simp
    have htake : (splitNetloc ((n ++ ((47 : Byte) :: p')) ++ (qt ++ ft))).1 = n := by
      show List.takeWhile (fun c : Byte => !netlocDelim c)
        ((n ++ ((47 : Byte) :: p')) ++ (qt ++ ft)) = n
      rw [hassoc, takeWhile_append_all hntrue, takeWhile_head_false (by decide)]
      exact List.append_nil n
    have hdropw : (splitNetloc ((n ++ ((47 : Byte) :: p')) ++ (qt ++ ft))).2 =
        (47 : Byte) :: (p' ++ (qt ++ ft)) := by
      show List.dropWhile (fun c : Byte => !netlocDelim c)
        ((n ++ ((47 : Byte) :: p')) ++ (qt ++ ft)) = (47 : Byte) :: (p' ++ (qt ++ ft))
      rw [hassoc, dropWhile_append_all hntrue, dropWhile_head_false (by decide)]
    rw [htake, hdropw]
    have hrec : splitFragQuery ((((47 : Byte) :: p') ++ qt) ++ ft) =
        ((47 : Byte) :: p', q, f) := by
      rw [hqt, hft]
      exact sfq_recover hA hq35
    rw [show (47 : Byte) :: (p' ++ (qt ++ ft)) = (((47 : Byte) :: p') ++ qt) ++ ft by simp,
      hrec]
  · have hupath : unsplitPath ⟨s, n, (47 : Byte) :: p', q, f⟩ = (47 : Byte) :: p' := by
      simp only [unsplitPath]
      rw [if_neg hcond]
    rw [hupath]
    have hn0 : n = [] := by
      by_contra hn
      exact hcond (Or.inl hn)
    have hp2 : ((47 : Byte) :: p').take 2 ≠ [(47 : Byte), (47 : Byte)] := hnep hn0
    have h2 : (((47 : Byte) :: p') ++ (qt ++ ft)).take 2 ≠ [(47 : Byte), (47 : Byte)] := by
      cases p' with
      | nil =>
        rcases hqtft with hnil | ⟨d, w, hdw, hd⟩
        · rw [hnil, List.append_nil]
          intro hcon
          exact absurd (congrArg List.length hcon) (by simp)
        · rw [hdw]
          intro hcon
          have h2' : ([47, d] : BStr) = [(47 : Byte), (47 : Byte)] := hcon
          have hd47 : d = (47 : Byte) := by
            have := congrArg (fun l => l.drop 1) h2'
            simpa using this
          rcases hd with rfl | rfl <;> exact absurd hd47 (by decide)
      | cons y p'' =>
        intro hcon
        have h2' : ([47, y] : BStr) = [(47 : Byte), (47 : Byte)] := hcon
        refine hp2 ?_
        have hy : y = (47 : Byte) := by
          have := congrArg (fun l => l.drop 1) h2'
          simpa using this
        show ([47, y] : BStr) = [(47 : Byte), (47 : Byte)]
        rw [hy]
    rw [pyUrlsplitAux_neg h2]
    have hrec : splitFragQuery ((((47 : Byte) :: p') ++ qt) ++ ft) =
        ((47 : Byte) :: p', q, f) := by
      rw [hqt, hft]
      exact sfq_recover hA hq35
    rw [show ((47 : Byte) :: p') ++ (qt ++ ft) = (((47 : Byte) :: p') ++ qt) ++ ft by simp,
      hrec, hn0]

/-! ## Projections of `pyUrlparse`, and the parse/unparse round trip -/

theorem pyUrlparse_scheme (v : BStr) : (pyUrlparse v).scheme = (pyUrlsplit v).scheme := by
  by_cases h : (pyUrlsplit v).scheme ∈ usesParams ∧ (59 : Byte) ∈ (pyUrlsplit v).path
  · rw [pyUrlparse_pos h]
  · rw [pyUrlparse_neg h]

theorem pyUrlparse_netloc (v : BStr) : (pyUrlparse v).netloc = (pyUrlsplit v).netloc := by
  by_cases h : (pyUrlsplit v).scheme ∈ usesParams ∧ (59 : Byte) ∈ (pyUrlsplit v).path
  · rw [pyUrlparse_pos h]
  · rw [pyUrlparse_neg h]

theorem pyUrlparse_query (v : BStr) : (pyUrlparse v).query = (pyUrlsplit v).query := by
  by_cases h : (pyUrlsplit v).scheme ∈ usesParams ∧ (59 : Byte) ∈ (pyUrlsplit v).path
  · rw [pyUrlparse_pos h]
  · rw [pyUrlparse_neg h]

theorem pyUrlparse_fragment (v : BStr) : (pyUrlparse v).fragment = (pyUrlsplit v).fragment := by
  by_cases h : (pyUrlsplit v).scheme ∈ usesParams ∧ (59 : Byte) ∈ (pyUrlsplit v).path
  · rw [pyUrlparse_pos h]
  · rw [pyUrlparse_neg h]

/-- `urlparse ∘ urlunparse` is the identity on good components. -/
theorem parse_unparse_roundtrip {c : UrlComponents} (h : GoodComps c) :
    pyUrlparse (pyUrlunparse c) = c := by
  obtain ⟨s, n, p, pr, q, f⟩ := c
  have hsch : goodSchemePre s = true := h.scheme_good
  have hlow : pyLower s = s := h.scheme_lower
  have hnl : ∀ x ∈ n, netlocDelim x = false ∧ cleanByte x = true := h.netloc_ok
  have hpok : ∀ x ∈ p, x ≠ (63 : Byte) ∧ x ≠ (35 : Byte) ∧ cleanByte x = true := h.path_ok
  have hp1 : p.take 1 = [(47 : Byte)] := h.path_slash1
  have hnep : n = [] → p.take 2 ≠ [(47 : Byte), (47 : Byte)] := h.netloc_empty_path
  have hprok : ∀ x ∈ pr, x ≠ (47 : Byte) ∧ x ≠ (63 : Byte) ∧ x ≠ (35 : Byte) ∧
      cleanByte x = true := h.params_ok
  have hqok : ∀ x ∈ q, x ≠ (35 : Byte) ∧ cleanByte x = true := h.query_ok
  have hfok : ∀ x ∈ f, cleanByte x = true := h.fragment_ok
  obtain ⟨p0, rfl⟩ : ∃ p0, p = (47 : Byte) :: p0 := by
    cases p with
    | nil => exact absurd hp1 (by simp)
    | cons a p0 =>
      have ha : a = (47 : Byte) := by simpa using hp1
      exact ⟨p0, by rw [ha]⟩
  have hjmem : ∀ x ∈ joinParams ((47 : Byte) :: p0) pr,
      x ≠ (63 : Byte) ∧ x ≠ (35 : Byte) ∧ cleanByte x = true := by
    intro x hx
    rcases mem_joinParams hx with h1 | rfl | h2
    · exact hpok x h1
    · exact ⟨by decide, by decide, by decide⟩
    · exact ⟨(hprok x h2).2.1, (hprok x h2).2.2.1, (hprok x h2).2.2.2⟩
  have hjp1 : (joinParams ((47 : Byte) :: p0) pr).take 1 = [(47 : Byte)] := by
    by_cases hpr : pr = []
    · rw [hpr, joinParams_nil]
      rfl
    · rw [joinParams_ne hpr]
      exact take_one_append (by simp) _
  have hjnep : n = [] →
      (joinParams ((47 : Byte) :: p0) pr).take 2 ≠ [(47 : Byte), (47 : Byte)] := by
    intro hn0
    have hpk := hnep hn0
    by_cases hpr : pr = []
    · rw [hpr, joinParams_nil]
      exact hpk
    · rw [joinParams_ne hpr]
      cases p0 with
      | nil =>
        intro hcon
        have h2' : ([47, 59] : BStr) = [(47 : Byte), (47 : Byte)] := hcon
        have h59 : (59 : Byte) = 47 := by
          have hd := congrArg (fun l => l.drop 1) h2'
          simp at hd
        exact absurd h59 (by decide)
      | cons y p1 =>
        intro hcon
        have h2' : ([47, y] : BStr) = [(47 : Byte), (47 : Byte)] := hcon
        refine hpk ?_
        have hy : y = (47 : Byte) := by
          have := congrArg (fun l => l.drop 1) h2'
          simpa using this
        show ([47, y] : BStr) = [(47 : Byte), (47 : Byte)]
        rw [hy]
  have hsplitr : pyUrlsplit (pyUrlunsplit ⟨s, n, joinParams ((47 : Byte) :: p0) pr, q, f⟩) =
      ⟨s, n, joinParams ((47 : Byte) :: p0) pr, q, f⟩ :=
    split_unsplit_roundtrip s n (joinParams ((47 : Byte) :: p0) pr) q f hsch hlow hnl
      hjmem hjp1 hjnep hqok hfok
  have hunp : pyUrlunparse ⟨s, n, (47 : Byte) :: p0, pr, q, f⟩ =
      pyUrlunsplit ⟨s, n, joinParams ((47 : Byte) :: p0) pr, q, f⟩ := rfl
  by_cases hcond : (pyUrlsplit (pyUrlunparse ⟨s, n, (47 : Byte) :: p0, pr, q, f⟩)).scheme ∈
      usesParams ∧
      (59 : Byte) ∈ (pyUrlsplit (pyUrlunparse ⟨s, n, (47 : Byte) :: p0, pr, q, f⟩)).path
  · have hsp : s ∈ usesParams := by
      have hc := hcond.1
      rw [hunp, hsplitr] at hc
      exact hc
    have hsplitfix : splitParams (joinParams ((47 : Byte) :: p0) pr) =
        ((47 : Byte) :: p0, pr) := h.split_fix hsp
    rw [pyUrlparse_pos hcond, hunp, hsplitr]
    show (⟨s, n, (splitParams (joinParams ((47 : Byte) :: p0) pr)).1,
      (splitParams (joinParams ((47 : Byte) :: p0) pr)).2, q, f⟩ : UrlComponents) =
      ⟨s, n, (47 : Byte) :: p0, pr, q, f⟩
    rw [hsplitfix]
  · have hpr : pr = [] := by
      by_contra hpr
      refine hcond ⟨?_, ?_⟩
      · have hsp : s ∈ usesParams := h.params_scheme hpr
        rw [hunp, hsplitr]
        exact hsp
      · rw [hunp, hsplitr]
        show (59 : Byte) ∈ joinParams ((47 : Byte) :: p0) pr
        rw [joinParams_ne hpr]
        exact List.mem_append.mpr (Or.inr (List.mem_cons_self _ _))
    subst hpr
    rw [pyUrlparse_neg hcond, hunp, hsplitr]
    show (⟨s, n, joinParams ((47 : Byte) :: p0) [], [], q, f⟩ : UrlComponents) =
      ⟨s, n, (47 : Byte) :: p0, [], q, f⟩
    rw [joinParams_nil]

/-! ## `strip_utm` through the round trip -/

theorem netlocDelim_false : ∀ x : Byte, netlocDelim x = false →
    x ≠ (63 : Byte) ∧ x ≠ (35 : Byte) ∧ x ≠ (47 : Byte) := by
  decide

/-- Character-level goodness of everything `urlunsplit` places before the
query marker, for components drawn from a parse result. -/
theorem unsplitPre_ok {s n p pr : BStr}
    (hs : s = [] ∨ goodSchemePre s = true)
    (hn : ∀ x ∈ n, netlocDelim x = false ∧ cleanByte x = true)
    (hp : ∀ x ∈ p, x ≠ (63 : Byte) ∧ x ≠ (35 : Byte) ∧ cleanByte x = true)
    (hpr : ∀ x ∈ pr, x ≠ (47 : Byte) ∧ x ≠ (63 : Byte) ∧ x ≠ (35 : Byte) ∧ cleanByte x = true)
    (q f : BStr) :
    ∀ x ∈ unsplitPre ⟨s, n, joinParams p pr, q, f⟩,
      x ≠ (63 : Byte) ∧ x ≠ (35 : Byte) ∧ cleanByte x = true := by
  intro x hx
  rcases unsplitPre_mem hx with hxs | hxn | hxp | rfl | rfl
  · rcases hs with hs0 | hg
    · rw [hs0] at hxs
      exact absurd hxs (List.not_mem_nil x)
    · rcases goodSchemePre_spec hg with ⟨c0, cs0, hse, _, hall⟩
      have hc := schemeChar_facts x (hall x (by rw [← hse]; exact hxs))
      exact ⟨hc.2.2.2.2.1, hc.2.2.2.2.2, hc.2.1⟩
  · have h3 := netlocDelim_false x (hn x hxn).1
    exact ⟨h3.1, h3.2.1, (hn x hxn).2⟩
  · rcases mem_joinParams hxp with h1 | rfl | h2
    · exact hp x h1
    · exact ⟨by decide, by decide, by decide⟩
    · exact ⟨(hpr x h2).2.1, (hpr x h2).2.2.1, (hpr x h2).2.2.2⟩
  · exact ⟨by decide, by decide, by decide⟩
  · exact ⟨by decide, by decide, by decide⟩

/-- The query `strip_utm` writes survives the unparse/split round trip, and
the fragment is preserved. -/
theorem strip_utm_split (u : BStr) :
    (pyUrlsplit (strip_utm u)).query = strippedQuery u ∧
    (pyUrlsplit (strip_utm u)).fragment = (pyUrlsplit u).fragment := by
  have hpf := pyUrlparse_facts u
  have h := split_unsplit_qf
    (r := ⟨(pyUrlparse u).scheme, (pyUrlparse u).netloc,
      joinParams (pyUrlparse u).path (pyUrlparse u).params,
      strippedQuery u, (pyUrlparse u).fragment⟩)
    (unsplitPre_ok hpf.scheme_ok hpf.netloc_ok hpf.path_ok hpf.params_ok _ _)
    (fun x hx => mem_urlencode_ok hx)
    hpf.fragment_ok
  have hid : pyUrlunsplit ⟨(pyUrlparse u).scheme, (pyUrlparse u).netloc,
      joinParams (pyUrlparse u).path (pyUrlparse u).params,
      strippedQuery u, (pyUrlparse u).fragment⟩ = strip_utm u := rfl
  rw [hid] at h
  exact ⟨h.1, h.2.trans (pyUrlparse_fragment u)⟩

/-! ## Goodness of the components assembled by `normalize_url` -/

theorem endsWith_slash_append (l : BStr) : endsWithB (bs "/") (l ++ [(47 : Byte)]) = true := by
  show beginsWith (bs "/").reverse (l ++ [(47 : Byte)]).reverse = true
  rw [List.reverse_append]
  have hb : (bs "/").reverse = [(47 : Byte)] := by decide
  have hb2 : ([(47 : Byte)] : BStr).reverse = [(47 : Byte)] := by decide
  rw [hb, hb2]
  simp [beginsWith]

theorem endsWith_slash_exists {l : BStr} (h : endsWithB (bs "/") l = true) :
    ∃ pi, l = pi ++ [(47 : Byte)] := by
  have h' : beginsWith (bs "/").reverse l.reverse = true := h
  have hb : (bs "/").reverse = [(47 : Byte)] := by decide
  rw [hb] at h'
  cases hrev : l.reverse with
  | nil =>
    rw [hrev] at h'
    exact absurd h' (by decide)
  | cons c cs =>
    rw [hrev] at h'
    have hc : c = (47 : Byte) := by
      simp only [beginsWith, Bool.and_eq_true, decide_eq_true_eq] at h'
      exact h'.1.symm
    refine ⟨cs.reverse, ?_⟩
    have hl : l = (c :: cs).reverse := by rw [← hrev, List.reverse_reverse]
    rw [hl, List.reverse_cons, hc]

theorem lower_netloc : ∀ x : Byte, netlocDelim x = false → cleanByte x = true →
    netlocDelim (pyLowerByte x) = false ∧ cleanByte (pyLowerByte x) = true := by
  decide

/-- The components `normalize_url` assembles are good whenever the parse of
the stripped URL has a netloc, or an empty path, or a `/`-headed but not
`//`-headed path. -/
theorem goodComps_build (P : UrlComponents) (hpf : ParseFacts P)
    (hshape : P.netloc ≠ [] ∨ P.path = [] ∨
      (P.path.take 1 = [(47 : Byte)] ∧ P.path.take 2 ≠ [(47 : Byte), (47 : Byte)])) :
    GoodComps ⟨(if pyLower P.scheme = [] then bs "https" else pyLower P.scheme),
      pyLower P.netloc,
      (if endsWithB (bs "/") (if P.path = [] then [(47 : Byte)] else P.path) = true then
         (if P.path = [] then [(47 : Byte)] else P.path)
       else (if P.path = [] then [(47 : Byte)] else P.path) ++ [(47 : Byte)]),
      P.params, P.query, P.fragment⟩ := by
  obtain ⟨s, n, p, pr, q, f⟩ := P
  have hsok : s = [] ∨ goodSchemePre s = true := hpf.scheme_ok
  have hslow : pyLower s = s := hpf.scheme_lower
  have hnok : ∀ x ∈ n, netlocDelim x = false ∧ cleanByte x = true := hpf.netloc_ok
  have hpok : ∀ x ∈ p, x ≠ (63 : Byte) ∧ x ≠ (35 : Byte) ∧ cleanByte x = true := hpf.path_ok
  have hprok : ∀ x ∈ pr, x ≠ (47 : Byte) ∧ x ≠ (63 : Byte) ∧ x ≠ (35 : Byte) ∧
      cleanByte x = true := hpf.params_ok
  have hprs : pr ≠ [] → s ∈ usesParams := hpf.params_scheme
  have hqok : ∀ x ∈ q, x ≠ (35 : Byte) ∧ cleanByte x = true := hpf.query_ok
  have hfok : ∀ x ∈ f, cleanByte x = true := hpf.fragment_ok
  have hnp : n ≠ [] → p = [] ∨ p.take 1 = [(47 : Byte)] := hpf.netloc_path
  have hshape' : n ≠ [] ∨ p = [] ∨
      (p.take 1 = [(47 : Byte)] ∧ p.take 2 ≠ [(47 : Byte), (47 : Byte)]) := hshape
  set path0 := (if p = [] then [(47 : Byte)] else p) with hpath0
  set path1 := (if endsWithB (bs "/") path0 = true then path0 else path0 ++ [(47 : Byte)])
    with hpath1
  have hp0mem : ∀ x ∈ path0, x ∈ p ∨ x = (47 : Byte) := by
    rw [hpath0]
    split
    · intro x hx
      right
      simpa using hx
    · intro x hx
      exact Or.inl hx
  have hp0take1 : path0.take 1 = [(47 : Byte)] := by
    rw [hpath0]
    split
    · rfl
    · rename_i hpne
      rcases hshape' with h1 | h2 | h3
      · rcases hnp h1 with h2' | h3'
        · exact absurd h2' hpne
        · exact h3'
      · exact absurd h2 hpne
      · exact h3.1
  have hp0nep : n = [] → path0.take 2 ≠ [(47 : Byte), (47 : Byte)] := by
    intro hn0
    rw [hpath0]
    split
    · intro hcon
      exact absurd (congrArg List.length hcon) (by simp)
    · rename_i hpne
      rcases hshape' with h1 | h2 | h3
      · exact absurd hn0 h1
      · exact absurd h2 hpne
      · exact h3.2
  have hp1mem : ∀ x ∈ path1, x ∈ p ∨ x = (47 : Byte) := by
    rw [hpath1]
    split
    · exact hp0mem
    · intro x hx
      rcases List.mem_append.mp hx with h1 | h2
      · exact hp0mem x h1
      · right
        simpa using h2
  have hp1take1 : path1.take 1 = [(47 : Byte)] := by
    rw [hpath1]
    split
    · exact hp0take1
    · have hne : path0 ≠ [] := by
        intro h0
        rw [h0] at hp0take1
        exact absurd hp0take1 (by simp)
      rw [take_one_append hne]
      exact hp0take1
  have hp1end : ∃ pi, path1 = pi ++ [(47 : Byte)] := by
    rw [hpath1]
    split
    · rename_i hend
      exact endsWith_slash_exists hend
    · exact ⟨path0, rfl⟩
  have hp1endB : endsWithB (bs "/") path1 = true := by
    rw [hpath1]
    split
    · rename_i hend
      exact hend
    · exact endsWith_slash_append path0
  have hp1take2 : n = [] → path1.take 2 ≠ [(47 : Byte), (47 : Byte)] := by
    intro hn0
    have h0 := hp0nep hn0
    rw [hpath1]
    split
    · exact h0
    · rename_i hnend
      obtain ⟨t, hpt⟩ : ∃ t, path0 = (47 : Byte) :: t := by
        cases hc : path0 with
        | nil =>
          rw [hc] at hp0take1
          exact absurd hp0take1 (by simp)
        | cons a t =>
          rw [hc] at hp0take1
          have ha : a = (47 : Byte) := by simpa using hp0take1
          exact ⟨t, by rw [ha]⟩
      cases t with
      | nil =>
        rw [hpt] at hnend
        exact absurd (by decide) hnend
      | cons y t' =>
        rw [hpt] at h0 ⊢
        rw [take_two_append]
        intro hcon
        refine h0 ?_
        have hy : y = (47 : Byte) := by
          have := congrArg (fun l => l.drop 1) hcon
          simpa using this
        show ([47, y] : BStr) = [(47 : Byte), (47 : Byte)]
        rw [hy]
  have hsg : goodSchemePre (if pyLower s = [] then bs "https" else pyLower s) = true := by
    split
    · decide
    · rename_i hsne
      rcases hsok with rfl | hg
      · exact absurd rfl hsne
      · exact goodSchemePre_lower hg
  have hsl : pyLower (if pyLower s = [] then bs "https" else pyLower s) =
      (if pyLower s = [] then bs "https" else pyLower s) := by
    split
    · decide
    · exact pyLower_idem s
  have hnok' : ∀ x ∈ pyLower n, netlocDelim x = false ∧ cleanByte x = true := by
    intro x hx
    rcases List.mem_map.mp hx with ⟨y, hy, rfl⟩
    exact lower_netloc y (hnok y hy).1 (hnok y hy).2
  have hp1ok : ∀ x ∈ path1, x ≠ (63 : Byte) ∧ x ≠ (35 : Byte) ∧ cleanByte x = true := by
    intro x hx
    rcases hp1mem x hx with h1 | rfl
    · exact hpok x h1
    · exact ⟨by decide, by decide, by decide⟩
  have hnep' : pyLower n = [] → path1.take 2 ≠ [(47 : Byte), (47 : Byte)] := by
    intro h0
    refine hp1take2 ?_
    cases n with
    | nil => rfl
    | cons a t => exact absurd h0 (by simp [pyLower])
  have hps' : pr ≠ [] → (if pyLower s = [] then bs "https" else pyLower s) ∈ usesParams := by
    intro hprne
    have hsp := hprs hprne
    split
    · decide
    · rw [hslow]
      exact hsp
  have hsf' : (if pyLower s = [] then bs "https" else pyLower s) ∈ usesParams →
      splitParams (joinParams path1 pr) = (path1, pr) := by
    intro _
    exact splitParams_trailing_slash hp1end (fun hm => (hprok _ hm).1 rfl)
  exact ⟨hsg, hsl, hnok', pyLower_idem n, hp1ok, hp1take1, hp1endB, hnep', hprok, hps',
    hsf', hqok, hfok⟩

/-- Under the shape condition, the components assembled by `normalize_url`
are good. -/
theorem normComps_good {u : BStr} (h : goodNormShape u = true) : GoodComps (normComps u) := by
  have hshape : (pyUrlparse (strip_utm u)).netloc ≠ [] ∨
      (pyUrlparse (strip_utm u)).path = [] ∨
      ((pyUrlparse (strip_utm u)).path.take 1 = [(47 : Byte)] ∧
       (pyUrlparse (strip_utm u)).path.take 2 ≠ [(47 : Byte), (47 : Byte)]) := by
    have h' := h
    unfold goodNormShape at h'
    simp only [Bool.or_eq_true, Bool.and_eq_true, Bool.not_eq_true', List.isEmpty_eq_true,
      decide_eq_true_eq, decide_eq_false_iff_not] at h'
    rcases h' with (h1 | h2) | h3
    · left
      intro hcon
      rw [hcon] at h1
      exact absurd h1 (by decide)
    · exact Or.inr (Or.inl h2)
    · exact Or.inr (Or.inr h3)
  exact goodComps_build (pyUrlparse (strip_utm u)) (pyUrlparse_facts (strip_utm u)) hshape

/-! ## `normalize_url` assembled -/

theorem normalize_url_eq (u : BStr) : normalize_url u = pyUrlunparse (normComps u) := rfl

theorem normComps_expand (v : BStr) :
    normComps v =
      ⟨(if pyLower (pyUrlparse (strip_utm v)).scheme = [] then bs "https"
        else pyLower (pyUrlparse (strip_utm v)).scheme),
       pyLower (pyUrlparse (strip_utm v)).netloc,
       (if endsWithB (bs "/") (if (pyUrlparse (strip_utm v)).path = [] then [(47 : Byte)]
            else (pyUrlparse (strip_utm v)).path) = true then
          (if (pyUrlparse (strip_utm v)).path = [] then [(47 : Byte)]
           else (pyUrlparse (strip_utm v)).path)
        else (if (pyUrlparse (strip_utm v)).path = [] then [(47 : Byte)]
           else (pyUrlparse (strip_utm v)).path) ++ [(47 : Byte)]),
       (pyUrlparse (strip_utm v)).params, (pyUrlparse (strip_utm v)).query,
       (pyUrlparse (strip_utm v)).fragment⟩ := rfl

theorem normComps_query (u : BStr) : (normComps u).query = strippedQuery u := by
  rw [normComps_expand, pyUrlparse_query]
  exact (strip_utm_split u).1

/-- Character-level goodness of the scheme, netloc and path that
`normalize_url` assembles, for an arbitrary parse result. -/
theorem norm_fields_ok (P : UrlComponents) (hpf : ParseFacts P) :
    goodSchemePre (if pyLower P.scheme = [] then bs "https" else pyLower P.scheme) = true ∧
    (∀ x ∈ pyLower P.netloc, netlocDelim x = false ∧ cleanByte x = true) ∧
    (∀ x ∈ (if endsWithB (bs "/") (if P.path = [] then [(47 : Byte)] else P.path) = true then
         (if P.path = [] then [(47 : Byte)] else P.path)
       else (if P.path = [] then [(47 : Byte)] else P.path) ++ [(47 : Byte)]),
       x ≠ (63 : Byte) ∧ x ≠ (35 : Byte) ∧ cleanByte x = true) := by
  refine ⟨?_, ?_, ?_⟩
  · by_cases hsc : pyLower P.scheme = []
    · rw [if_pos hsc]
      decide
    · rw [if_neg hsc]
      rcases hpf.scheme_ok with hs0 | hg
      · rw [hs0] at hsc
        exact absurd rfl hsc
      · exact goodSchemePre_lower hg
  · intro x hx
    rcases List.mem_map.mp hx with ⟨y, hy, rfl⟩
    exact lower_netloc y (hpf.netloc_ok y hy).1 (hpf.netloc_ok y hy).2
  · have hmem0 : ∀ y : Byte, y ∈ (if P.path = [] then [(47 : Byte)] else P.path) →
        y ≠ (63 : Byte) ∧ y ≠ (35 : Byte) ∧ cleanByte y = true := by
      intro y hy
      by_cases hpe : P.path = []
      · rw [if_pos hpe] at hy
        have hy47 : y = (47 : Byte) := by simpa using hy
        rw [hy47]
        exact ⟨by decide, by decide, by decide⟩
      · rw [if_neg hpe] at hy
        exact hpf.path_ok y hy
    intro x hx
    by_cases hend : endsWithB (bs "/") (if P.path = [] then [(47 : Byte)] else P.path) = true
    · rw [if_pos hend] at hx
      exact hmem0 x hx
    · rw [if_neg hend] at hx
      rcases List.mem_append.mp hx with h1 | h2
      · exact hmem0 x h1
      · have hx47 : x = (47 : Byte) := by simpa using h2
        rw [hx47]
        exact ⟨by decide, by decide, by decide⟩

set_option maxHeartbeats 1600000 in
/-- The query of the normalized URL, as re-split by `urlsplit`, is exactly
the tracking-stripped re-encoded query — for every input. -/
theorem normalize_split_query (u : BStr) :
    (pyUrlsplit (normalize_url u)).query = strippedQuery u := by
  have hpf := pyUrlparse_facts (strip_utm u)
  have hno := norm_fields_ok (pyUrlparse (strip_utm u)) hpf
  have h := split_unsplit_qf
    (r := ⟨(if pyLower (pyUrlparse (strip_utm u)).scheme = [] then bs "https"
        else pyLower (pyUrlparse (strip_utm u)).scheme),
      pyLower (pyUrlparse (strip_utm u)).netloc,
      joinParams
        (if endsWithB (bs "/") (if (pyUrlparse (strip_utm u)).path = [] then [(47 : Byte)]
            else (pyUrlparse (strip_utm u)).path) = true then
          (if (pyUrlparse (strip_utm u)).path = [] then [(47 : Byte)]
           else (pyUrlparse (strip_utm u)).path)
        else (if (pyUrlparse (strip_utm u)).path = [] then [(47 : Byte)]
           else (pyUrlparse (strip_utm u)).path) ++ [(47 : Byte)])
        (pyUrlparse (strip_utm u)).params,
      (pyUrlparse (strip_utm u)).query, (pyUrlparse (strip_utm u)).fragment⟩)
    (unsplitPre_ok (Or.inr hno.1) hno.2.1 hno.2.2 hpf.params_ok _ _)
    hpf.query_ok hpf.fragment_ok
  have hid : pyUrlunsplit ⟨(if pyLower (pyUrlparse (strip_utm u)).scheme = [] then bs "https"
        else pyLower (pyUrlparse (strip_utm u)).scheme),
      pyLower (pyUrlparse (strip_utm u)).netloc,
      joinParams
        (if endsWithB (bs "/") (if (pyUrlparse (strip_utm u)).path = [] then [(47 : Byte)]
            else (pyUrlparse (strip_utm u)).path) = true then
          (if (pyUrlparse (strip_utm u)).path = [] then [(47 : Byte)]
           else (pyUrlparse (strip_utm u)).path)
        else (if (pyUrlparse (strip_utm u)).path = [] then [(47 : Byte)]
           else (pyUrlparse (strip_utm u)).path) ++ [(47 : Byte)])
        (pyUrlparse (strip_utm u)).params,
      (pyUrlparse (strip_utm u)).query, (pyUrlparse (strip_utm u)).fragment⟩ =
      normalize_url u := rfl
  rw [hid] at h
  exact h.1.trans ((pyUrlparse_query (strip_utm u)).trans (strip_utm_split u).1)

/-- Parsing the normalized URL recovers the assembled components, under the
shape condition. -/
theorem parse_normalize {u : BStr} (h : goodNormShape u = true) :
    pyUrlparse (normalize_url u) = normComps u := by
  rw [normalize_url_eq]
  exact parse_unparse_roundtrip (normComps_good h)

set_option maxHeartbeats 1600000 in
/-- Stripping tracking parameters is the identity on an already-normalized
URL (shape condition assumed). -/
theorem strip_utm_normalize {u : BStr} (h : goodNormShape u = true) :
    strip_utm (normalize_url u) = normalize_url u := by
  have hparse : pyUrlparse (normalize_url u) = normComps u := parse_normalize h
  show pyUrlunparse { pyUrlparse (normalize_url u) with
    query := pyUrlencode ((pyParseQsl (pyUrlparse (normalize_url u)).query).filter
      (fun kv => !startsUtm kv.1)) } = normalize_url u
  rw [hparse]
  have hrec : ({ normComps u with
      query := pyUrlencode ((pyParseQsl (normComps u).query).filter
        (fun kv => !startsUtm kv.1)) } : UrlComponents) = normComps u := by
    have hq3 : pyUrlencode ((pyParseQsl (normComps u).query).filter
        (fun kv => !startsUtm kv.1)) = (normComps u).query := by
      rw [normComps_query]
      unfold strippedQuery
      rw [pyParseQsl_urlencode]
      congr 1
      exact List.filter_eq_self.mpr (fun a ha => (List.mem_filter.mp ha).2)
    rw [hq3]
  rw [hrec]
  exact (normalize_url_eq u).symm

/-- The component-normalization step is the identity on good components. -/
theorem normComps_fixed {c : UrlComponents} (h : GoodComps c) :
    (⟨(if pyLower c.scheme = [] then bs "https" else pyLower c.scheme),
      pyLower c.netloc,
      (if endsWithB (bs "/") (if c.path = [] then [(47 : Byte)] else c.path) = true then
         (if c.path = [] then [(47 : Byte)] else c.path)
       else (if c.path = [] then [(47 : Byte)] else c.path) ++ [(47 : Byte)]),
      c.params, c.query, c.fragment⟩ : UrlComponents) = c := by
  have hpne : c.path ≠ [] := by
    intro h0
    have hs1 := h.path_slash1
    rw [h0] at hs1
    exact absurd hs1 (by simp)
  have hsne : ¬ pyLower c.scheme = [] := by
    rw [h.scheme_lower]
    rcases goodSchemePre_spec h.scheme_good with ⟨c0, cs0, he, _, _⟩
    rw [he]
    simp
  rw [if_neg hsne, if_neg hpne, if_pos h.path_end, h.scheme_lower, h.netloc_lower]

/-- Normalizing twice assembles the same components (shape condition
assumed). -/
theorem normComps_of_good {u : BStr} (h : goodNormShape u = true) :
    normComps (normalize_url u) = normComps u := by
  have h2 : pyUrlparse (strip_utm (normalize_url u)) = normComps u := by
    rw [strip_utm_normalize h]
    exact parse_normalize h
  rw [normComps_expand (normalize_url u), h2]
  exact normComps_fixed (normComps_good h)

theorem normalize_idem {u : BStr} (h : goodNormShape u = true) :
    normalize_url (normalize_url u) = normalize_url u := by
  rw [normalize_url_eq (normalize_url u), normComps_of_good h]
  exact (normalize_url_eq u).symm

/-- Claim C2 (amended): `normalize_url` strips every tracking parameter — in
the query of the normalized URL, as re-split by `urlsplit`, no key starts
(case-insensitively) with `utm_` — and it is idempotent on every URL whose
tracking-stripped form parses with a non-empty netloc, or with an empty
path, or with a `/`-headed but not `//`-headed path (`goodNormShape`); the
claim's concrete example also holds.  Idempotence does NOT hold on all
inputs (see the counterexample). -/
theorem C2_normalize_properties :
    (∀ u : BStr, ∀ kv ∈ pyParseQsl ((pyUrlsplit (normalize_url u)).query),
      startsUtm kv.1 = false) ∧
    (∀ u : BStr, goodNormShape u = true →
      normalize_url (normalize_url u) = normalize_url u) ∧
    normalize_url (bs "https://X/a?utm_source=y&b=1") =
      normalize_url (bs "https://X/a/?b=1") := by
  refine ⟨?_, ?_, ?_⟩
  · intro u kv hkv
    rw [normalize_split_query] at hkv
    unfold strippedQuery at hkv
    rw [pyParseQsl_urlencode] at hkv
    have hf := (List.mem_filter.mp hkv).2
    simpa using hf
  · intro u h
    exact normalize_idem h
  · decide

/-- Claim C2 counterexample: `normalize_url` is not idempotent on every
input — on `"//////"` it returns `"https://"`, whose re-normalization is the
different string `"https:///"`. -/
theorem C2_counterexample :
    normalize_url (bs "//////") = bs "https://" ∧
    normalize_url (normalize_url (bs "//////")) = bs "https:///" ∧
    normalize_url (normalize_url (bs "//////")) ≠ normalize_url (bs "//////") := by
  exact ⟨by decide, by decide, by decide⟩

/-- Witness for C2: the idempotence part applied at a concrete URL of good
shape. -/
theorem C2_witness :
    goodNormShape (bs "http://h/a") = true ∧
    normalize_url (normalize_url (bs "http://h/a")) = normalize_url (bs "http://h/a") :=
  ⟨by decide, C2_normalize_properties.2.1 (bs "http://h/a") (by decide)⟩

end BlogBL
